import Mathlib

/-
  Verification development for the Wirehair streaming FEC codec core
  (src/Wirehair.hpp).  The repository ships only the class declarations;
  every algorithmic definition below is modelled from the natural-language
  specification (spec.md) of the encoder/decoder pipeline, as a shallow
  embedding over lists of bytes and GF(2) coefficient vectors.
-/

namespace Wirehair

/-- A block is a list of bytes; block addition is bytewise XOR (spec §3). -/
abbrev Block := List Nat

/-- The all-zero block of given byte count. -/
def zeroBlock (B : Nat) : Block := List.replicate B 0

/-- Bytewise XOR of two blocks. -/
def blockXor (a b : Block) : Block := List.zipWith Nat.xor a b

theorem length_zeroBlock (B : Nat) : (zeroBlock B).length = B :=
  List.length_replicate B 0

theorem length_blockXor (a b : Block) :
    (blockXor a b).length = min a.length b.length := by
  simp [blockXor]

theorem blockXor_comm (a : Block) : ∀ b : Block, blockXor a b = blockXor b a := by
  induction a with
  | nil => intro b; cases b <;> rfl
  | cons x xs ih =>
    intro b
    cases b with
    | nil => rfl
    | cons y ys =>
      simp [blockXor]
      exact ⟨Nat.xor_comm x y, ih ys⟩

theorem blockXor_assoc (a : Block) :
    ∀ b c : Block, blockXor (blockXor a b) c = blockXor a (blockXor b c) := by
  induction a with
  | nil => intro b c; rfl
  | cons x xs ih =>
    intro b c
    cases b with
    | nil => rfl
    | cons y ys =>
      cases c with
      | nil => rfl
      | cons z zs =>
        simp [blockXor]
        exact ⟨Nat.xor_assoc x y z, ih ys zs⟩

theorem blockXor_left_comm (a b c : Block) :
    blockXor a (blockXor b c) = blockXor b (blockXor a c) := by
  rw [← blockXor_assoc, blockXor_comm a b, blockXor_assoc]

theorem blockXor_self (a : Block) : blockXor a a = zeroBlock a.length := by
  induction a with
  | nil => rfl
  | cons x xs ih =>
    simp [blockXor, zeroBlock, List.replicate_succ] at *
    exact ⟨Nat.xor_self x, ih⟩

theorem zeroBlock_xor (a : Block) {B : Nat} (h : a.length = B) :
    blockXor (zeroBlock B) a = a := by
  subst h
  induction a with
  | nil => rfl
  | cons x xs ih =>
    simp [blockXor, zeroBlock, List.replicate_succ] at *
    exact ⟨Nat.zero_xor x, ih⟩

theorem blockXor_zeroBlock (a : Block) {B : Nat} (h : a.length = B) :
    blockXor a (zeroBlock B) = a := by
  rw [blockXor_comm]; exact zeroBlock_xor a h

theorem blockXor_cancel_left (a b : Block) (h : a.length = b.length) :
    blockXor a (blockXor a b) = b := by
  rw [← blockXor_assoc, blockXor_self, zeroBlock_xor b h.symm]

/-- From x ⊕ a = b conclude a = x ⊕ b (all the same length). -/
theorem blockXor_solve {x a b : Block} (hx : x.length = a.length)
    (h : blockXor x a = b) : a = blockXor x b := by
  rw [← h, blockXor_cancel_left x a hx]

/-- (x ⊕ a) ⊕ (x ⊕ c) = a ⊕ c when all operands share one length. -/
theorem blockXor_xor_xor_cancel {B : Nat} (x a c : Block)
    (hx : x.length = B) (ha : a.length = B) (hc : c.length = B) :
    blockXor (blockXor x a) (blockXor x c) = blockXor a c := by
  rw [blockXor_assoc, blockXor_left_comm a x c, ← blockXor_assoc x x,
    blockXor_self, hx, zeroBlock_xor]
  rw [length_blockXor, ha, hc, Nat.min_self]

/--
XOR of the blocks selected by a GF(2) coefficient vector:
the accumulated sum over the column blocks whose coefficient bit is set
(spec §3, "Row — one equation sum(...) = observed_block").
-/
def dotXor (B : Nat) : List Bool → List Block → Block
  | c :: cs, x :: xs =>
    if c then blockXor x (dotXor B cs xs) else dotXor B cs xs
  | _, _ => zeroBlock B

@[simp] theorem dotXor_nil_left (B : Nat) (xs : List Block) :
    dotXor B [] xs = zeroBlock B := by cases xs <;> rfl

@[simp] theorem dotXor_nil_right (B : Nat) (cs : List Bool) :
    dotXor B cs [] = zeroBlock B := by cases cs <;> rfl

@[simp] theorem dotXor_cons (B : Nat) (c : Bool) (cs : List Bool)
    (x : Block) (xs : List Block) :
    dotXor B (c :: cs) (x :: xs) =
      if c then blockXor x (dotXor B cs xs) else dotXor B cs xs := rfl

theorem dotXor_cons_true (B : Nat) (cs : List Bool) (x : Block) (xs : List Block) :
    dotXor B (true :: cs) (x :: xs) = blockXor x (dotXor B cs xs) := rfl

theorem dotXor_cons_false (B : Nat) (cs : List Bool) (x : Block) (xs : List Block) :
    dotXor B (false :: cs) (x :: xs) = dotXor B cs xs := rfl

theorem length_dotXor (B : Nat) :
    ∀ (cs : List Bool) (xs : List Block), (∀ x ∈ xs, x.length = B) →
      (dotXor B cs xs).length = B := by
  intro cs
  induction cs with
  | nil => intro xs h; simp [length_zeroBlock]
  | cons c cs ih =>
    intro xs h
    cases xs with
    | nil => simp [length_zeroBlock]
    | cons x xs =>
      have hx : x.length = B := h x (List.mem_cons_self x xs)
      have htl : ∀ y ∈ xs, y.length = B := fun y hy => h y (List.mem_cons_of_mem x hy)
      cases c with
      | false => simpa using ih xs htl
      | true =>
        simp [length_blockXor, hx, ih xs htl]

/-- Linearity of `dotXor` over GF(2) addition of coefficient vectors. -/
theorem dotXor_zipWith_xor (B : Nat) :
    ∀ (cs ds : List Bool) (xs : List Block),
      cs.length = ds.length → (∀ x ∈ xs, x.length = B) →
      dotXor B (List.zipWith Bool.xor cs ds) xs =
        blockXor (dotXor B cs xs) (dotXor B ds xs) := by
  intro cs
  induction cs with
  | nil =>
    intro ds xs hlen h
    have hds : ds = [] := by
      cases ds with
      | nil => rfl
      | cons d ds => simp at hlen
    subst hds
    simp [blockXor_zeroBlock (zeroBlock B) (length_zeroBlock B)]
  | cons c cs ih =>
    intro ds xs hlen h
    cases ds with
    | nil => simp at hlen
    | cons d ds =>
      have hlen2 : cs.length = ds.length := by simpa using hlen
      cases xs with
      | nil =>
        simp [blockXor_zeroBlock (zeroBlock B) (length_zeroBlock B)]
      | cons x xs =>
        have hx : x.length = B := h x (List.mem_cons_self x xs)
        have htl : ∀ y ∈ xs, y.length = B :=
          fun y hy => h y (List.mem_cons_of_mem x hy)
        have hc : (dotXor B cs xs).length = B := length_dotXor B cs xs htl
        have hd : (dotXor B ds xs).length = B := length_dotXor B ds xs htl
        have ihx := ih ds xs hlen2 htl
        cases c <;> cases d <;>
          simp [List.zipWith, ihx]
        · exact blockXor_left_comm x (dotXor B cs xs) (dotXor B ds xs)
        · exact (blockXor_assoc x (dotXor B cs xs) (dotXor B ds xs)).symm
        · exact (blockXor_xor_xor_cancel x (dotXor B cs xs) (dotXor B ds xs)
            hx hc hd).symm

/--
A dense-system row: GF(2) coefficient bits over the columns, paired with
its observed (right-hand side) block (spec §3 "Row").
-/
abbrev GERow := List Bool × Block

/--
Modelled from the spec: §4.4 partial pivoting — "For column k, scan
pivots[k..] for a row whose bit k is set; if none is found, fail."
Returns the first row whose leading bit is set, together with the
remaining rows.
-/
def pickPivot : List GERow → Option (GERow × List GERow)
  | [] => none
  | r :: rs =>
    if r.1.headI = true then some (r, rs)
    else
      match pickPivot rs with
      | none => none
      | some (p, rest) => some (p, r :: rest)

/--
Modelled from the spec: §4.4 — "for every subsequent row with bit k set,
XOR the pivot row into it"; the leading coefficient is then dropped as the
elimination moves to the next column.
-/
def reduceRow (p r : GERow) : GERow :=
  if r.1.headI = true then
    ((List.zipWith Bool.xor r.1 p.1).tail, blockXor r.2 p.2)
  else (r.1.tail, r.2)

/--
Modelled from the spec: the dense GF(2) solver of §4.4
(Encoder::Triangle, SolveTriangleColumns and Diagonal, whose
implementations are not in the repository) — triangularize by partial
pivoting, eliminating one column per step, then back-substitute each
pivot value; returns the recovered column blocks, or none when some
column has no available pivot (the singular case).
-/
def gaussSolve (B : Nat) : Nat → List GERow → Option (List Block)
  | 0, _ => some []
  | c + 1, rows =>
    match pickPivot rows with
    | none => none
    | some (p, rest) =>
      match gaussSolve B c (rest.map (reduceRow p)) with
      | none => none
      | some xs => some (blockXor p.2 (dotXor B p.1.tail xs) :: xs)

theorem pickPivot_spec :
    ∀ (rows : List GERow) (p : GERow) (rest : List GERow),
      pickPivot rows = some (p, rest) →
      p ∈ rows ∧ p.1.headI = true ∧ rest.length + 1 = rows.length ∧
        (∀ r ∈ rows, r = p ∨ r ∈ rest) ∧ (∀ r ∈ rest, r ∈ rows) := by
  intro rows
  induction rows with
  | nil => intro p rest h; simp [pickPivot] at h
  | cons r rs ih =>
    intro p rest h
    by_cases hc : r.1.headI = true
    · simp [pickPivot, hc] at h
      obtain ⟨hp, hrest⟩ := h
      subst hp; subst hrest
      refine ⟨List.mem_cons_self r rs, hc, rfl, ?_, ?_⟩
      · intro q hq
        rcases List.mem_cons.mp hq with h1 | h1
        · exact Or.inl h1
        · exact Or.inr h1
      · intro q hq; exact List.mem_cons_of_mem r hq
    · rw [pickPivot, if_neg hc] at h
      cases hrec : pickPivot rs with
      | none => rw [hrec] at h; simp at h
      | some pr =>
        rw [hrec] at h
        obtain ⟨p0, rest0⟩ := pr
        simp at h
        obtain ⟨hp, hrest⟩ := h
        subst hp
        obtain ⟨hmem, hhead, hlen, hcov, hsub⟩ := ih p0 rest0 hrec
        subst hrest
        refine ⟨List.mem_cons_of_mem r hmem, hhead, by simp [← hlen], ?_, ?_⟩
        · intro q hq
          rcases List.mem_cons.mp hq with h1 | h1
          · exact Or.inr (h1 ▸ List.mem_cons_self r rest0)
          · rcases hcov q h1 with h2 | h2
            · exact Or.inl h2
            · exact Or.inr (List.mem_cons_of_mem r h2)
        · intro q hq
          rcases List.mem_cons.mp hq with h1 | h1
          · exact h1 ▸ List.mem_cons_self r rs
          · exact List.mem_cons_of_mem r (hsub q h1)

/-- Pivot back-substitution identity used by the solver proofs. -/
theorem blockXor_pivot_solve {B : Nat} {p2 P A r2 : Block}
    (hp : p2.length = B) (_hP : P.length = B) (_hA : A.length = B)
    (hr : r2.length = B) (h : blockXor A P = blockXor r2 p2) :
    blockXor (blockXor p2 P) A = r2 := by
  rw [blockXor_assoc, blockXor_comm P A, h, blockXor_comm r2 p2,
    ← blockXor_assoc, blockXor_self, hp, zeroBlock_xor r2 hr]

/--
Soundness of the dense solver: on a square well-formed system, a
successful solve returns column blocks satisfying every row equation
(spec §4.4–§4.5: after diagonalization and substitution every column
holds its recovered value).
-/
theorem gaussSolve_sound (B : Nat) :
    ∀ (c : Nat) (rows : List GERow) (xs : List Block),
      rows.length = c →
      (∀ r ∈ rows, r.1.length = c ∧ r.2.length = B) →
      gaussSolve B c rows = some xs →
      xs.length = c ∧ (∀ x ∈ xs, x.length = B) ∧
        (∀ r ∈ rows, dotXor B r.1 xs = r.2) := by
  intro c
  induction c with
  | zero =>
    intro rows xs hlen hwf hs
    have hrows : rows = [] := List.length_eq_zero.mp hlen
    subst hrows
    simp [gaussSolve] at hs
    subst hs
    simp
  | succ c ih =>
    intro rows xs hlen hwf hs
    rw [gaussSolve] at hs
    cases hp : pickPivot rows with
    | none => rw [hp] at hs; simp at hs
    | some pr =>
      obtain ⟨p, rest⟩ := pr
      rw [hp] at hs
      dsimp only at hs
      obtain ⟨hpmem, hphead, hrestlen, hcov, hsub⟩ := pickPivot_spec rows p rest hp
      obtain ⟨hp1len, hp2len⟩ := hwf p hpmem
      obtain ⟨b, pt, hp1⟩ : ∃ b pt, p.1 = b :: pt := by
        cases hpp : p.1 with
        | nil => rw [hpp] at hp1len; simp at hp1len
        | cons b pt => exact ⟨b, pt, rfl⟩
      have hb : b = true := by rw [hp1] at hphead; simpa using hphead
      subst hb
      have hptlen : pt.length = c := by
        rw [hp1] at hp1len; simpa using hp1len
      have hwf2 : ∀ r ∈ rest.map (reduceRow p), r.1.length = c ∧ r.2.length = B := by
        intro r2 h2
        obtain ⟨r, hrmem, rfl⟩ := List.mem_map.mp h2
        obtain ⟨hrl, hrb⟩ := hwf r (hsub r hrmem)
        by_cases hh : r.1.headI = true
        · simp only [reduceRow, if_pos hh]
          constructor
          · simp [List.length_tail, hrl, hp1len]
          · simp [length_blockXor, hrb, hp2len]
        · simp only [reduceRow, if_neg hh]
          constructor
          · simp [List.length_tail, hrl]
          · exact hrb
      have hlen2 : (rest.map (reduceRow p)).length = c := by
        simp only [List.length_map]
        omega
      cases hrec : gaussSolve B c (rest.map (reduceRow p)) with
      | none => rw [hrec] at hs; simp at hs
      | some xs0 =>
        rw [hrec] at hs
        simp only [Option.some.injEq] at hs
        obtain ⟨hxs0len, hxs0wf, hsat0⟩ := ih _ xs0 hlen2 hwf2 hrec
        have hP : (dotXor B pt xs0).length = B := length_dotXor B pt xs0 hxs0wf
        rw [hp1] at hs
        simp only [List.tail_cons] at hs
        subst hs
        refine ⟨by simp [hxs0len], ?_, ?_⟩
        · intro x hx
          rcases List.mem_cons.mp hx with h1 | h1
          · subst h1; simp [length_blockXor, hp2len, hP]
          · exact hxs0wf x h1
        · intro r hr
          rcases hcov r hr with rfl | hrrest
          · rw [hp1, dotXor_cons_true]
            rw [blockXor_assoc, blockXor_self, hP, blockXor_zeroBlock r.2 hp2len]
          · obtain ⟨hr1len, hr2len⟩ := hwf r (hsub r hrrest)
            obtain ⟨b, bs, hr1⟩ : ∃ b bs, r.1 = b :: bs := by
              cases hrr : r.1 with
              | nil => rw [hrr] at hr1len; simp at hr1len
              | cons b bs => exact ⟨b, bs, rfl⟩
            have hbslen : bs.length = c := by
              rw [hr1] at hr1len; simpa using hr1len
            have hsat2 := hsat0 (reduceRow p r) (List.mem_map_of_mem (reduceRow p) hrrest)
            cases b with
            | false =>
              have hh : r.1.headI = false := by rw [hr1]; rfl
              rw [reduceRow] at hsat2
              rw [if_neg (by simp [hh])] at hsat2
              rw [hr1] at hsat2 ⊢
              simpa using hsat2
            | true =>
              have hh : r.1.headI = true := by rw [hr1]; rfl
              rw [reduceRow, if_pos hh, hr1, hp1] at hsat2
              simp only [List.zipWith_cons_cons, Bool.xor_self, List.tail_cons] at hsat2
              rw [dotXor_zipWith_xor B bs pt xs0 (by rw [hbslen, hptlen]) hxs0wf] at hsat2
              have hA : (dotXor B bs xs0).length = B := length_dotXor B bs xs0 hxs0wf
              rw [hr1, dotXor_cons_true]
              exact blockXor_pivot_solve hp2len hP hA hr2len hsat2

/--
Uniqueness: when the dense solver succeeds, its output agrees with any
column assignment that satisfies every row of the system.  This is the
decoder-side fact that a full-column-rank solve pins down the column
blocks (spec §4.4: the triangularization finds a pivot for every column).
-/
theorem gaussSolve_unique (B : Nat) :
    ∀ (c : Nat) (rows : List GERow) (xs ys : List Block),
      (∀ r ∈ rows, r.1.length = c ∧ r.2.length = B) →
      gaussSolve B c rows = some xs →
      ys.length = c →
      (∀ y ∈ ys, y.length = B) →
      (∀ r ∈ rows, dotXor B r.1 ys = r.2) →
      xs = ys := by
  intro c
  induction c with
  | zero =>
    intro rows xs ys hwf hs hyl hywf hsat
    simp [gaussSolve] at hs
    subst hs
    exact (List.length_eq_zero.mp hyl).symm
  | succ c ih =>
    intro rows xs ys hwf hs hyl hywf hsat
    rw [gaussSolve] at hs
    cases hp : pickPivot rows with
    | none => rw [hp] at hs; simp at hs
    | some pr =>
      obtain ⟨p, rest⟩ := pr
      rw [hp] at hs
      dsimp only at hs
      obtain ⟨hpmem, hphead, hrestlen, hcov, hsub⟩ := pickPivot_spec rows p rest hp
      obtain ⟨hp1len, hp2len⟩ := hwf p hpmem
      obtain ⟨b, pt, hp1⟩ : ∃ b pt, p.1 = b :: pt := by
        cases hpp : p.1 with
        | nil => rw [hpp] at hp1len; simp at hp1len
        | cons b pt => exact ⟨b, pt, rfl⟩
      have hb : b = true := by rw [hp1] at hphead; simpa using hphead
      subst hb
      have hptlen : pt.length = c := by
        rw [hp1] at hp1len; simpa using hp1len
      cases ys with
      | nil => simp at hyl
      | cons y0 yt =>
        have hytlen : yt.length = c := by simpa using hyl
        have hy0 : y0.length = B := hywf y0 (List.mem_cons_self y0 yt)
        have hytwf : ∀ y ∈ yt, y.length = B :=
          fun y hy => hywf y (List.mem_cons_of_mem y0 hy)
        have hQ : (dotXor B pt yt).length = B := length_dotXor B pt yt hytwf
        have hpsat : blockXor y0 (dotXor B pt yt) = p.2 := by
          have hh := hsat p hpmem
          rw [hp1, dotXor_cons_true] at hh
          exact hh
        have hwf2 : ∀ r ∈ rest.map (reduceRow p), r.1.length = c ∧ r.2.length = B := by
          intro r2 h2
          obtain ⟨r, hrmem, rfl⟩ := List.mem_map.mp h2
          obtain ⟨hrl, hrb⟩ := hwf r (hsub r hrmem)
          by_cases hh : r.1.headI = true
          · simp only [reduceRow, if_pos hh]
            constructor
            · simp [List.length_tail, hrl, hp1len]
            · simp [length_blockXor, hrb, hp2len]
          · simp only [reduceRow, if_neg hh]
            constructor
            · simp [List.length_tail, hrl]
            · exact hrb
        have hsat2 : ∀ r2 ∈ rest.map (reduceRow p), dotXor B r2.1 yt = r2.2 := by
          intro r2 h2
          obtain ⟨r, hrmem, rfl⟩ := List.mem_map.mp h2
          obtain ⟨hr1len, hr2len⟩ := hwf r (hsub r hrmem)
          obtain ⟨b, bs, hr1⟩ : ∃ b bs, r.1 = b :: bs := by
            cases hrr : r.1 with
            | nil => rw [hrr] at hr1len; simp at hr1len
            | cons b bs => exact ⟨b, bs, rfl⟩
          have hbslen : bs.length = c := by
            rw [hr1] at hr1len; simpa using hr1len
          have hrsat := hsat r (hsub r hrmem)
          cases b with
          | false =>
            have hh : r.1.headI = false := by rw [hr1]; rfl
            rw [hr1, dotXor_cons_false] at hrsat
            rw [reduceRow, if_neg (by simp [hh]), hr1]
            simpa using hrsat
          | true =>
            have hh : r.1.headI = true := by rw [hr1]; rfl
            rw [reduceRow, if_pos hh, hr1, hp1]
            simp only [List.zipWith_cons_cons, Bool.xor_self, List.tail_cons]
            rw [dotXor_zipWith_xor B bs pt yt (by rw [hbslen, hptlen]) hytwf]
            rw [hr1, dotXor_cons_true] at hrsat
            rw [← hrsat, ← hpsat]
            exact (blockXor_xor_xor_cancel y0 (dotXor B bs yt) (dotXor B pt yt)
              hy0 (length_dotXor B bs yt hytwf) hQ).symm
        cases hrec : gaussSolve B c (rest.map (reduceRow p)) with
        | none => rw [hrec] at hs; simp at hs
        | some xs0 =>
          rw [hrec] at hs
          simp only [Option.some.injEq] at hs
          have hx0 : xs0 = yt := ih _ xs0 yt hwf2 hrec hytlen hytwf hsat2
          rw [hp1] at hs
          simp only [List.tail_cons] at hs
          subst hs
          rw [hx0]
          have hhead : blockXor p.2 (dotXor B pt yt) = y0 := by
            rw [← hpsat, blockXor_assoc, blockXor_self, hQ,
              blockXor_zeroBlock y0 hy0]
          rw [hhead]

/-- Trial-division primality test. -/
def isPrime (n : Nat) : Bool :=
  decide (2 ≤ n) && (List.range (n - 2)).all (fun d => n % (d + 2) != 0)

/--
Modelled from the spec: the next prime number including or higher than
the argument (_block_next_prime and _added_next_prime of
src/Wirehair.hpp, whose computation is not in the repository).
-/
def nextPrime (n : Nat) : Nat :=
  (((List.range (n + 3)).map (fun k => n + k)).find? isPrime).getD (n + 2)

/--
Modelled from the spec: §9 "Deterministic PRNG" — a small portable
32-bit mixing function (a multiply-add bijective hash modulo 2³²).
-/
def mix32 (x : Nat) : Nat :=
  Nat.xor ((x * 2654435761 + 2654435769) % 4294967296)
    (((x * 2654435761 + 2654435769) % 4294967296) / 65536)

/--
Modelled from the spec: §4.1 — the k-th 16-bit uniform variate drawn for
row identifier r under generator seed g.
-/
def rand16 (g r k : Nat) : Nat :=
  mix32 (mix32 (g + r) + k * 2654435761) % 65536

/--
Modelled from the spec: §4.1 — the peel weight drawn from a fixed
compile-time distribution heavily favoring small weights, sampled by
searching a 16-bit variate against a fixed CDF table (search unrolled).
-/
def peelWeight (v : Nat) : Nat :=
  if v < 32768 then 2
  else if v < 49152 then 3
  else if v < 57344 then 4
  else if v < 61440 then 5
  else 6

theorem peelWeight_ge_two (v : Nat) : 2 ≤ peelWeight v := by
  rw [peelWeight]
  repeat' split
  all_goals omega

/--
Modelled from the spec: §4.1 — "draw a uniform 16-bit variate, reduce
modulo next_prime(N), reject if ≥ N; for subsequent picks, add a random
stride (coprime to next_prime(N)) and apply the same reduction": advance
by the stride until the reduced value falls below the limit
(fuel-bounded; the fallback 0 is returned only when no fuel remains).
-/
def pickMod (limit p stride : Nat) : Nat → Nat → Nat
  | _, 0 => 0
  | x, fuel + 1 => if x % p < limit then x % p else pickMod limit p stride (x + stride) fuel

theorem pickMod_lt (limit p stride : Nat) (hl : 1 ≤ limit) :
    ∀ (fuel x : Nat), pickMod limit p stride x fuel < limit := by
  intro fuel
  induction fuel with
  | zero => intro x; simp [pickMod]; omega
  | succ f ih =>
    intro x
    rw [pickMod]
    by_cases h : x % p < limit
    · simp only [if_pos h]; exact h
    · simpa [h] using ih (x + stride)

/-- Fuel-bounded base-2 logarithm (structural recursion on the fuel). -/
def log2fuel : Nat → Nat → Nat
  | 0, _ => 0
  | fuel + 1, n => if n ≤ 1 then 0 else log2fuel fuel (n / 2) + 1

/--
Modelled from the spec: §4.1 — the dense mixing-column count d, "a small
function of N (roughly the smallest value ≥ log₂ N + a safety margin)";
a single-block message needs no mixing columns.
-/
def denseCount (N : Nat) : Nat := if N ≤ 1 then 0 else log2fuel N N + 2

/--
Modelled from the spec: §4.1 — the list of peel-weight-many distinct
column indices in [0, N) for row identifier r under generator seed g
(the sparse references of the generated row); duplicate picks are
discarded.
-/
def sparseColsSeeded (g N r : Nat) : List Nat :=
  let p := nextPrime N
  let w := peelWeight (rand16 g r 0)
  let a := rand16 g r 1
  let stride := rand16 g r 2 % (p - 1) + 1
  ((List.range w).map (fun k => pickMod N p stride (a + k * stride) (p + 1))).dedup

/--
Modelled from the spec: §4.1 — the dense mixing set under generator seed
g: exactly two indices in [0, d) chosen by the same prime-modular
technique against next_prime(d) (empty in the degenerate d = 0 case).
-/
def mixColsSeeded (g N r : Nat) : List Nat :=
  let d := denseCount N
  if d = 0 then []
  else
    let q := nextPrime d
    [pickMod d q 1 (rand16 g r 3) (q + 1), pickMod d q 1 (rand16 g r 4) (q + 1)]

/--
Modelled from the spec: §4.1 and §4.3 — the GF(2) coefficient vector of
the row generated for identifier r under seed g, over the N message
columns followed by the d dense mixing columns (GenerateRow, not in the
repository).
-/
def rowCoeffsSeeded (g N r : Nat) : List Bool :=
  let cols := sparseColsSeeded g N r ++ (mixColsSeeded g N r).map (fun m => N + m)
  (List.range (N + denseCount N)).map (fun j => decide (j ∈ cols))

/--
Modelled from the spec: §4.3 step 3 — the reserved identifier range used
to generate the d dense mixing rows.
-/
def denseRowId (j : Nat) : Nat := 4294901760 + j

/--
Modelled from the spec: §4.3 steps 3 and 5 — the coefficient vector of
dense mixing row j under seed g: a pseudorandom dense signature over the
N message columns, generated from its reserved identifier, together
with the bit identifying its own mixing column.
-/
def denseRowCoeffsSeeded (g N j : Nat) : List Bool :=
  (List.range (N + denseCount N)).map
    (fun i =>
      if i < N then decide (rand16 g (denseRowId j) i % 2 = 1)
      else decide (i = N + j))

/--
The coefficient matrix of the full (N + d) × (N + d) GF(2) system the
encoder setup would solve under generator seed g.
-/
def systemCoeffs (N g : Nat) : List (List Bool) :=
  (List.range N).map (rowCoeffsSeeded g N) ++
    (List.range (denseCount N)).map (denseRowCoeffsSeeded g N)

/--
Modelled from the spec: §4.1 and §7 — a candidate seed is acceptable for
N when the full GF(2) system it generates is nonsingular (checked by
running the dense solver on the coefficients alone, with empty
right-hand sides).
-/
def seedOk (N g : Nat) : Bool :=
  (gaussSolve 0 (N + denseCount N)
    ((systemCoeffs N g).map (fun cs => (cs, ([] : Block))))).isSome

/-- The t-th candidate generator seed for block count N. -/
def candSeed (N t : Nat) : Nat := mix32 (mix32 N + t)

/--
Modelled from the spec: §4.1 — the seed for the nonsingular generator
matrix (_g_seed): "fixed per (N, d) pair and ... selected so that the
dense subsystem (§4.4) is non-singular with overwhelming probability;
the implementation picks it from a small table keyed by N".  The tuned
table entry is modelled as the first of 64 candidate seeds whose
generated system is nonsingular (falling back to the first candidate
when none is, the spec's "no seed succeeds" failure mode).
-/
def gSeed (N : Nat) : Nat :=
  match (List.range 64).find? (fun t => seedOk N (candSeed N t)) with
  | some t => candSeed N t
  | none => candSeed N 0

/-- The sparse column list of row r under the tuned per-N seed. -/
def sparseCols (N r : Nat) : List Nat := sparseColsSeeded (gSeed N) N r

/-- The dense mixing set of row r under the tuned per-N seed. -/
def mixCols (N r : Nat) : List Nat := mixColsSeeded (gSeed N) N r

/-- The coefficient vector of row r under the tuned per-N seed. -/
def rowCoeffs (N r : Nat) : List Bool :=
  let cols := sparseCols N r ++ (mixCols N r).map (fun m => N + m)
  (List.range (N + denseCount N)).map (fun j => decide (j ∈ cols))

/-- The coefficient vector of dense row j under the tuned per-N seed. -/
def denseRowCoeffs (N j : Nat) : List Bool :=
  denseRowCoeffsSeeded (gSeed N) N j

/-- Number of blocks in the message: N = ⌈M/B⌉ (_block_count). -/
def blockCount (M B : Nat) : Nat := (M + B - 1) / B

/--
Zero-pad a byte list to B bytes (spec §3: the final message block is
conceptually zero-padded to B for all matrix work).
-/
def padTo (B : Nat) (l : List Nat) : List Nat :=
  l ++ List.replicate (B - l.length) 0

/-- Message block i of the zero-padded message (_message_blocks). -/
def msgBlock (msg : List Nat) (B i : Nat) : Block :=
  padTo B ((msg.drop (i * B)).take B)

/--
Modelled from the spec: §4.2–§4.3 — the full GF(2) system the encoder
setup solves: one generated row per message block, with the zero-padded
message block as right-hand side, plus the d dense mixing rows with zero
right-hand sides.
-/
def encSystem (msg : List Nat) (B : Nat) : List GERow :=
  (List.range (blockCount msg.length B)).map
      (fun r => (rowCoeffs (blockCount msg.length B) r, msgBlock msg B r)) ++
    (List.range (denseCount (blockCount msg.length B))).map
      (fun j => (denseRowCoeffs (blockCount msg.length B) j, zeroBlock B))

/--
Modelled from the spec: Encoder::GenerateCheckBlocks (its implementation
is not in the repository) — run the one-time setup pipeline of §4
(peeling, compression, triangularization, substitution; in sum, solving
the full GF(2) system) and recover every column block.
-/
def GenerateCheckBlocks (msg : List Nat) (B : Nat) : Option (List Block) :=
  gaussSolve B (blockCount msg.length B + denseCount (blockCount msg.length B))
    (encSystem msg B)

/--
Modelled from the spec: the encoder state after a successful
initialization (check-block state of src/Wirehair.hpp lines 78–88).
-/
structure Encoder where
  blockBytes : Nat
  blockCount : Nat
  checkBlocks : List Block
  nextBlockId : Nat
deriving DecidableEq

/--
Modelled from the spec: §4.6 and §7 — validity of the initialize
parameters: 1 ≤ B and 1 ≤ ⌈M/B⌉ ≤ 2¹⁶.
-/
def paramsOk (M B : Nat) : Bool :=
  decide (1 ≤ B) && decide (1 ≤ blockCount M B) && decide (blockCount M B ≤ 65535)

/--
Modelled from the spec: Encoder::Initialize (its implementation is not
in the repository) — validate the parameters, run the one-time setup,
and report failure (none) on invalid parameters or a singular dense
system.
-/
def Encoder.Initialize (msg : List Nat) (B : Nat) : Option Encoder :=
  if paramsOk msg.length B then
    match GenerateCheckBlocks msg B with
    | some xs => some ⟨B, Wirehair.blockCount msg.length B, xs, 0⟩
    | none => none
  else none

/--
Modelled from the spec: §4.5 — the block for identifier r is the XOR of
the recovered column blocks selected by the row generator at r.
-/
def Encoder.GenerateAt (e : Encoder) (r : Nat) : Block :=
  dotXor e.blockBytes (rowCoeffs e.blockCount r) e.checkBlocks

/--
Modelled from the spec: Encoder::Generate (its implementation is not in
the repository) — emit the block for the internally held next identifier
(_next_block_id) and advance that identifier.
-/
def Encoder.Generate (e : Encoder) : Block × Encoder :=
  (e.GenerateAt e.nextBlockId, { e with nextBlockId := e.nextBlockId + 1 })

/-- The blocks produced by k successive calls to Encoder::Generate. -/
def Encoder.GenerateList (e : Encoder) : Nat → List Block
  | 0 => []
  | k + 1 => (e.Generate).1 :: (e.Generate).2.GenerateList k

/--
Modelled from the spec: §2 and §4.6 — the system the decoder solves:
one generated row per received (identifier, payload) pair plus the same
d dense mixing rows ("the system becomes Ax = b where b is the received
blocks").
-/
def decSystem (N B : Nat) (recv : List (Nat × Block)) : List GERow :=
  recv.map (fun q => (rowCoeffs N q.1, q.2)) ++
    (List.range (denseCount N)).map (fun j => (denseRowCoeffs N j, zeroBlock B))

/--
Modelled from the spec: Decoder::Decode (its implementation is not in
the repository), batched over all received blocks — attempt to solve the
received system for every column block.
-/
def Decoder.Decode (M B : Nat) (recv : List (Nat × Block)) : Option (List Block) :=
  gaussSolve B (blockCount M B + denseCount (blockCount M B))
    (decSystem (blockCount M B) B recv)

/--
Modelled from the spec: §4.6 finalize — regenerate message rows 0…N−1
from the recovered column blocks and write exactly M bytes, trimming the
final-block padding.
-/
def Decoder.Finalize (M B : Nat) (xs : List Block) : List Nat :=
  (((List.range (blockCount M B)).map
    (fun r => dotXor B (rowCoeffs (blockCount M B) r) xs)).flatten).take M

theorem length_rowCoeffs (N r : Nat) :
    (rowCoeffs N r).length = N + denseCount N := by
  simp [rowCoeffs]

theorem length_denseRowCoeffs (N j : Nat) :
    (denseRowCoeffs N j).length = N + denseCount N := by
  simp [denseRowCoeffs, denseRowCoeffsSeeded]

theorem length_padTo (B : Nat) (l : List Nat) (h : l.length ≤ B) :
    (padTo B l).length = B := by
  simp [padTo]
  omega

theorem length_msgBlock (msg : List Nat) (B i : Nat) :
    (msgBlock msg B i).length = B := by
  rw [msgBlock, length_padTo]
  simp

theorem encSystem_wf (msg : List Nat) (B : Nat) :
    ∀ r ∈ encSystem msg B,
      r.1.length = blockCount msg.length B + denseCount (blockCount msg.length B) ∧
        r.2.length = B := by
  intro r hr
  rcases List.mem_append.mp hr with h | h
  · obtain ⟨i, _, rfl⟩ := List.mem_map.mp h
    exact ⟨length_rowCoeffs _ i, length_msgBlock msg B i⟩
  · obtain ⟨j, _, rfl⟩ := List.mem_map.mp h
    exact ⟨length_denseRowCoeffs _ j, length_zeroBlock B⟩

theorem encSystem_length (msg : List Nat) (B : Nat) :
    (encSystem msg B).length =
      blockCount msg.length B + denseCount (blockCount msg.length B) := by
  simp [encSystem]

theorem Encoder.Initialize_inv (msg : List Nat) (B : Nat) (e : Encoder)
    (h : Encoder.Initialize msg B = some e) :
    paramsOk msg.length B = true ∧ e.blockBytes = B ∧
      e.blockCount = Wirehair.blockCount msg.length B ∧ e.nextBlockId = 0 ∧
      GenerateCheckBlocks msg B = some e.checkBlocks := by
  rw [Encoder.Initialize] at h
  by_cases hp : paramsOk msg.length B = true
  · rw [if_pos hp] at h
    cases hg : GenerateCheckBlocks msg B with
    | none => rw [hg] at h; simp at h
    | some xs =>
      rw [hg] at h
      simp only [Option.some.injEq] at h
      subst h
      exact ⟨hp, rfl, rfl, rfl, rfl⟩
  · rw [if_neg hp] at h; simp at h

/--
Everything the solver soundness theorem yields about the check blocks of
a successfully initialized encoder.
-/
theorem Encoder.checkBlocks_sound (msg : List Nat) (B : Nat) (e : Encoder)
    (h : Encoder.Initialize msg B = some e) :
    e.checkBlocks.length =
        Wirehair.blockCount msg.length B +
          denseCount (Wirehair.blockCount msg.length B) ∧
      (∀ x ∈ e.checkBlocks, x.length = B) ∧
      (∀ r ∈ encSystem msg B, dotXor B r.1 e.checkBlocks = r.2) := by
  obtain ⟨-, -, -, -, hg⟩ := Encoder.Initialize_inv msg B e h
  exact gaussSolve_sound B _ (encSystem msg B) e.checkBlocks
    (encSystem_length msg B) (encSystem_wf msg B) hg

theorem encSystem_mem_msgRow (msg : List Nat) (B r : Nat)
    (hr : r < blockCount msg.length B) :
    (rowCoeffs (blockCount msg.length B) r, msgBlock msg B r) ∈ encSystem msg B := by
  apply List.mem_append_left
  exact List.mem_map_of_mem _ (List.mem_range.mpr hr)

theorem encSystem_mem_denseRow (msg : List Nat) (B j : Nat)
    (hj : j < denseCount (blockCount msg.length B)) :
    ((denseRowCoeffs (blockCount msg.length B) j, zeroBlock B) : GERow) ∈
      encSystem msg B := by
  apply List.mem_append_right
  exact List.mem_map_of_mem _ (List.mem_range.mpr hj)

/--
The central row-equation fact: a successfully initialized encoder's
recovered column blocks satisfy the equation of every message row.
-/
theorem encoder_row_equation (msg : List Nat) (B : Nat) (e : Encoder) (r : Nat)
    (h : Encoder.Initialize msg B = some e) (hr : r < blockCount msg.length B) :
    dotXor B (rowCoeffs (blockCount msg.length B) r) e.checkBlocks =
      msgBlock msg B r := by
  obtain ⟨-, -, hsat⟩ := Encoder.checkBlocks_sound msg B e h
  exact hsat _ (encSystem_mem_msgRow msg B r hr)

theorem le_blockCount_mul (M B : Nat) (hB : 1 ≤ B) : M ≤ blockCount M B * B := by
  have hdm := Nat.div_add_mod (M + B - 1) B
  have hmod : (M + B - 1) % B < B := Nat.mod_lt _ (by omega)
  rw [blockCount, Nat.mul_comm]
  set p := B * ((M + B - 1) / B) with hp
  omega

theorem blockCount_pos (M B : Nat) (hM : 1 ≤ M) (hB : 1 ≤ B) :
    1 ≤ blockCount M B := by
  rw [blockCount]
  have h1 : 1 * B ≤ M + B - 1 := by omega
  have := (Nat.le_div_iff_mul_le (by omega : 0 < B)).mpr h1
  omega

theorem paramsOk_inv (M B : Nat) (h : paramsOk M B = true) :
    1 ≤ B ∧ 1 ≤ blockCount M B ∧ blockCount M B ≤ 65535 := by
  have hh := h
  simp [paramsOk] at hh
  exact ⟨hh.1.1, hh.1.2, hh.2⟩

theorem msgBlock_succ (msg : List Nat) (B i : Nat) :
    msgBlock msg B (i + 1) = msgBlock (msg.drop B) B i := by
  rw [msgBlock, msgBlock, List.drop_drop, Nat.succ_mul, Nat.add_comm]

/--
Joining the zero-padded message blocks reconstitutes the message
followed by the final-block padding.
-/
theorem flatten_msgBlocks (B : Nat) :
    ∀ (n : Nat) (msg : List Nat), msg.length ≤ n * B →
      ((List.range n).map (fun r => msgBlock msg B r)).flatten =
        msg ++ List.replicate (n * B - msg.length) 0 := by
  intro n
  induction n with
  | zero =>
    intro msg h
    have hm : msg = [] := List.eq_nil_of_length_eq_zero (by omega)
    subst hm
    simp
  | succ n ih =>
    intro msg h
    have hsm : (n + 1) * B = n * B + B := Nat.succ_mul n B
    rw [List.range_succ_eq_map, List.map_cons, List.map_map]
    have hmap : (List.range n).map ((fun r => msgBlock msg B r) ∘ Nat.succ) =
        (List.range n).map (fun r => msgBlock (msg.drop B) B r) :=
      List.map_congr_left (fun a _ => by
        simp only [Function.comp]
        exact msgBlock_succ msg B a)
    rw [hmap]
    have hdlen : (msg.drop B).length ≤ n * B := by
      rw [List.length_drop]; omega
    rw [List.flatten_cons, ih (msg.drop B) hdlen]
    have h0 : msgBlock msg B 0 = msg.take B ++ List.replicate (B - (msg.take B).length) 0 := by
      rw [msgBlock, Nat.zero_mul, List.drop_zero, padTo]
    by_cases hlB : B ≤ msg.length
    · have htake : (msg.take B).length = B := by
        rw [List.length_take]; omega
      rw [h0, htake, Nat.sub_self, List.replicate_zero, List.append_nil]
      rw [← List.append_assoc, List.take_append_drop, List.length_drop]
      congr 1
      congr 1
      omega
    · have htake : msg.take B = msg := List.take_of_length_le (by omega)
      have hdrop : msg.drop B = [] := List.drop_eq_nil_of_le (by omega)
      rw [h0, htake, hdrop, List.nil_append, List.append_assoc,
        ← List.replicate_add]
      simp only [List.length_nil, Nat.sub_zero]
      congr 2
      omega

/--
The well-formedness of the system the decoder assembles from the
encoder's own generated blocks.
-/
theorem decSystem_enc_wf (msg : List Nat) (B : Nat) (e : Encoder)
    (ids : List Nat) (he : Encoder.Initialize msg B = some e) :
    ∀ r ∈ decSystem (blockCount msg.length B) B
        (ids.map (fun i => (i, e.GenerateAt i))),
      r.1.length = blockCount msg.length B + denseCount (blockCount msg.length B) ∧
        r.2.length = B := by
  obtain ⟨-, hBB, hNN, -, -⟩ := Encoder.Initialize_inv msg B e he
  obtain ⟨-, hwfB, -⟩ := Encoder.checkBlocks_sound msg B e he
  intro r hr
  rcases List.mem_append.mp hr with h | h
  · obtain ⟨q, hq, rfl⟩ := List.mem_map.mp h
    obtain ⟨i, -, rfl⟩ := List.mem_map.mp hq
    refine ⟨length_rowCoeffs _ _, ?_⟩
    rw [Encoder.GenerateAt, hBB, hNN]
    exact length_dotXor B _ _ hwfB
  · obtain ⟨j, -, rfl⟩ := List.mem_map.mp h
    exact ⟨length_denseRowCoeffs _ j, length_zeroBlock B⟩

/--
The encoder's recovered column blocks satisfy every row the decoder
assembles from the encoder's generated blocks.
-/
theorem decSystem_enc_sat (msg : List Nat) (B : Nat) (e : Encoder)
    (ids : List Nat) (he : Encoder.Initialize msg B = some e) :
    ∀ r ∈ decSystem (blockCount msg.length B) B
        (ids.map (fun i => (i, e.GenerateAt i))),
      dotXor B r.1 e.checkBlocks = r.2 := by
  obtain ⟨-, hBB, hNN, -, -⟩ := Encoder.Initialize_inv msg B e he
  obtain ⟨-, -, hsat⟩ := Encoder.checkBlocks_sound msg B e he
  intro r hr
  rcases List.mem_append.mp hr with h | h
  · obtain ⟨q, hq, rfl⟩ := List.mem_map.mp h
    obtain ⟨i, -, rfl⟩ := List.mem_map.mp hq
    rw [Encoder.GenerateAt, hBB, hNN]
  · obtain ⟨j, hj, rfl⟩ := List.mem_map.mp h
    exact hsat _ (encSystem_mem_denseRow msg B j (List.mem_range.mp hj))

/--
A successful decode of any set of encoder-generated blocks recovers
exactly the encoder's column blocks.
-/
theorem decode_of_encoder (msg : List Nat) (B : Nat) (e : Encoder)
    (ids : List Nat) (xs : List Block)
    (he : Encoder.Initialize msg B = some e)
    (hdec : Decoder.Decode msg.length B
      (ids.map (fun i => (i, e.GenerateAt i))) = some xs) :
    xs = e.checkBlocks := by
  obtain ⟨hlen, hwfB, -⟩ := Encoder.checkBlocks_sound msg B e he
  exact gaussSolve_unique B _ _ xs e.checkBlocks
    (decSystem_enc_wf msg B e ids he) hdec hlen hwfB
    (decSystem_enc_sat msg B e ids he)

/--
Finalizing the decoder's recovered columns reproduces the original
message bytes: regenerate rows 0…N−1 and trim to M bytes.
-/
theorem finalize_of_decode (msg : List Nat) (B : Nat) (e : Encoder)
    (ids : List Nat) (xs : List Block)
    (he : Encoder.Initialize msg B = some e)
    (hdec : Decoder.Decode msg.length B
      (ids.map (fun i => (i, e.GenerateAt i))) = some xs) :
    Decoder.Finalize msg.length B xs = msg := by
  obtain ⟨hp, -, -, -, -⟩ := Encoder.Initialize_inv msg B e he
  obtain ⟨hB, -, -⟩ := paramsOk_inv msg.length B hp
  have hxs := decode_of_encoder msg B e ids xs he hdec
  subst hxs
  rw [Decoder.Finalize]
  have hmapeq : (List.range (blockCount msg.length B)).map
      (fun r => dotXor B (rowCoeffs (blockCount msg.length B) r) e.checkBlocks) =
      (List.range (blockCount msg.length B)).map (fun r => msgBlock msg B r) :=
    List.map_congr_left (fun r hr =>
      encoder_row_equation msg B e r he (List.mem_range.mp hr))
  rw [hmapeq, flatten_msgBlocks B _ msg (le_blockCount_mul msg.length B hB)]
  exact List.take_left msg
    (List.replicate (blockCount msg.length B * B - msg.length) 0)

/--
Successive Generate calls walk the internal next-identifier counter:
the i-th produced block is the block for identifier nextBlockId + i.
-/
theorem Encoder.GenerateList_eq (k : Nat) :
    ∀ e : Encoder, e.GenerateList k =
      (List.range k).map (fun i => e.GenerateAt (e.nextBlockId + i)) := by
  induction k with
  | zero => intro e; rfl
  | succ k ih =>
    intro e
    rw [Encoder.GenerateList, List.range_succ_eq_map, List.map_cons, List.map_map]
    have hh : (e.Generate).1 = e.GenerateAt (e.nextBlockId + 0) := by
      simp [Encoder.Generate]
    have ht : (e.Generate).2.GenerateList k =
        (List.range k).map ((fun i => e.GenerateAt (e.nextBlockId + i)) ∘ Nat.succ) := by
      rw [ih]
      refine List.map_congr_left (fun a _ => ?_)
      show (e.Generate).2.GenerateAt ((e.Generate).2.nextBlockId + a) =
        e.GenerateAt (e.nextBlockId + (a + 1))
      rw [Encoder.Generate]
      show e.GenerateAt (e.nextBlockId + 1 + a) = e.GenerateAt (e.nextBlockId + (a + 1))
      congr 1
      omega
    rw [hh, ht]

theorem sparseCols_lt (N r : Nat) (hN : 1 ≤ N) :
    ∀ c ∈ sparseCols N r, c < N := by
  intro c hc
  rw [sparseCols, sparseColsSeeded] at hc
  have hc2 := List.mem_dedup.mp hc
  obtain ⟨k, -, rfl⟩ := List.mem_map.mp hc2
  exact pickMod_lt N _ _ hN _ _

theorem sparseCols_ne_nil (N r : Nat) : sparseCols N r ≠ [] := by
  rw [sparseCols, sparseColsSeeded]
  intro h
  rw [List.dedup_eq_nil, List.map_eq_nil_iff, List.range_eq_nil] at h
  have := peelWeight_ge_two (rand16 (gSeed N) r 0)
  omega

theorem denseCount_one : denseCount 1 = 0 := rfl

theorem mixCols_one (r : Nat) : mixCols 1 r = [] := rfl

theorem rowCoeffs_one (r : Nat) : rowCoeffs 1 r = [true] := by
  have h0 : (0 : Nat) ∈ sparseCols 1 r := by
    obtain ⟨c, hc⟩ := List.exists_mem_of_ne_nil _ (sparseCols_ne_nil 1 r)
    have hlt := sparseCols_lt 1 r (le_refl 1) c hc
    have hc0 : c = 0 := by omega
    subst hc0
    exact hc
  rw [rowCoeffs, mixCols_one, denseCount_one]
  simp [List.range_succ, h0]

theorem blockCount_eq_one (M B : Nat) (h1 : 1 ≤ M) (h2 : M ≤ B) :
    blockCount M B = 1 := by
  rw [blockCount]
  exact Nat.div_eq_of_lt_le (by omega) (by omega)

/--
The single-block system solves directly to the zero-padded message: with
N = 1 there are no mixing columns and one row whose coefficient vector is
the single set bit.
-/
theorem GenerateCheckBlocks_single (msg : List Nat) (B : Nat)
    (hN : blockCount msg.length B = 1) :
    GenerateCheckBlocks msg B = some [msgBlock msg B 0] := by
  rw [GenerateCheckBlocks, encSystem, hN, denseCount_one]
  rw [show List.range 1 = [0] by simp [List.range_succ], List.range_zero]
  simp only [List.map_cons, List.map_nil, List.append_nil, rowCoeffs_one]
  rw [gaussSolve]
  rw [pickPivot]
  simp only [List.headI, if_pos]
  rw [List.map_nil]
  rw [gaussSolve]
  simp only [List.tail_cons, dotXor_nil_left]
  rw [blockXor_zeroBlock (msgBlock msg B 0) (length_msgBlock msg B 0)]

/--
A concrete successfully initialized encoder (message bytes 0…7, B = 2,
N = 4), with its recovered column blocks; used by witness theorems.
-/
def encW : Encoder := ⟨2, 4, [[0,1],[6,7],[4,4],[2,2],[0,0],[6,6],[2,2],[0,0]], 0⟩

/--
A concrete successfully initialized encoder for a message whose length
(7) is not a multiple of the block size (2); used by witness theorems.
-/
def encW7 : Encoder := ⟨2, 4, [[0,1],[6,0],[4,3],[2,5],[0,7],[6,1],[2,5],[0,0]], 0⟩

/--
The encoder of the spec §8 Tiny scenario: M = 4, B = 2, message bytes
DE AD BE EF (N = 2), with its recovered column blocks.
-/
def encT : Encoder := ⟨2, 2, [[222,173],[190,239],[96,66],[190,239],[222,173]], 0⟩

/--
The spec's §8 Tiny scenario holds of the model under the tuned per-N
seed: the DE AD BE EF message initializes successfully, generate(0) and
generate(1) return the two message blocks, and a decoder fed the rows
for identifiers 2 and 0 finalizes to the original message.
-/
theorem tiny_scenario :
    Encoder.Initialize [222,173,190,239] 2 = some encT ∧
      encT.GenerateAt 0 = [222,173] ∧ encT.GenerateAt 1 = [190,239] ∧
      (Decoder.Decode 4 2 ([2,0].map (fun i => (i, encT.GenerateAt i)))).map
        (Decoder.Finalize 4 2) = some [222,173,190,239] :=
  ⟨by decide, by decide, by decide, by decide⟩

/--
C1: for every successful initialization and every row identifier
r < N, the XOR of the recovered column blocks over the column set the
row generator produces for r equals the zero-padded message block r.
-/
theorem C1_row_equation_after_init (msg : List Nat) (B : Nat) (e : Encoder)
    (r : Nat) (h : Encoder.Initialize msg B = some e) (hr : r < e.blockCount) :
    dotXor B (rowCoeffs e.blockCount r) e.checkBlocks = msgBlock msg B r := by
  obtain ⟨-, -, hNN, -, -⟩ := Encoder.Initialize_inv msg B e h
  rw [hNN] at hr ⊢
  exact encoder_row_equation msg B e r h hr

theorem C1_row_equation_after_init_witness :
    Encoder.Initialize (List.range 8) 2 = some encW ∧ (2 : Nat) < encW.blockCount ∧
      dotXor 2 (rowCoeffs encW.blockCount 2) encW.checkBlocks =
        msgBlock (List.range 8) 2 2 :=
  ⟨by decide, by decide,
    C1_row_equation_after_init (List.range 8) 2 encW 2 (by decide) (by decide)⟩

/--
C2 (amended): for any identifier list — in particular any N + k distinct
identifiers in any order — whose blocks were produced by a successfully
initialized encoder, IF the decoder's solve completes then finalize
returns exactly the original message bytes.  (Unconditional completion
fails: see the counterexample.)
-/
theorem C2_roundtrip_conditional (msg : List Nat) (B : Nat) (e : Encoder)
    (ids : List Nat) (xs : List Block)
    (he : Encoder.Initialize msg B = some e)
    (hdec : Decoder.Decode msg.length B
      (ids.map (fun i => (i, e.GenerateAt i))) = some xs) :
    Decoder.Finalize msg.length B xs = msg :=
  finalize_of_decode msg B e ids xs he hdec

theorem C2_roundtrip_conditional_witness :
    Encoder.Initialize (List.range 8) 2 = some encW ∧
      Decoder.Decode 8 2 ([0,1,2,3].map (fun i => (i, encW.GenerateAt i))) =
        some encW.checkBlocks ∧
      Decoder.Finalize 8 2 encW.checkBlocks = List.range 8 :=
  ⟨by decide, by decide,
    C2_roundtrip_conditional (List.range 8) 2 encW [0,1,2,3] encW.checkBlocks
      (by decide) (by decide)⟩

/--
C2 counterexample: a set of N = 4 distinct identifiers (k = 0) whose
encoder-generated blocks the decoder cannot complete on: the received
system is rank-deficient, so Decode reports no solution instead of
finalizing to the message.
-/
theorem C2_counterexample_incomplete :
    Encoder.Initialize (List.range 8) 2 = some encW ∧
      encW.blockCount = 4 ∧ ([1,2,3,4] : List Nat).Nodup ∧
      Decoder.Decode 8 2 ([1,2,3,4].map (fun i => (i, encW.GenerateAt i))) = none :=
  ⟨by decide, by decide, by decide, by decide⟩

/--
C3: determinism — two encoders initialized from equal message bytes and
equal block sizes are equal, and generate byte-identical blocks for
every identifier; the model's outputs depend on nothing else.
-/
theorem C3_two_run_determinism (msg1 msg2 : List Nat) (B1 B2 : Nat)
    (hm : msg1 = msg2) (hB : B1 = B2) :
    Encoder.Initialize msg1 B1 = Encoder.Initialize msg2 B2 ∧
      ∀ e1 e2 r, Encoder.Initialize msg1 B1 = some e1 →
        Encoder.Initialize msg2 B2 = some e2 →
        e1.GenerateAt r = e2.GenerateAt r := by
  subst hm
  subst hB
  refine ⟨rfl, ?_⟩
  intro e1 e2 r h1 h2
  rw [h1] at h2
  have h3 := Option.some.inj h2
  subst h3
  rfl

theorem C3_two_run_determinism_witness :
    Encoder.Initialize [1,2,3] 2 = Encoder.Initialize [1,2,3] 2 ∧
      ∀ e1 e2 r, Encoder.Initialize [1,2,3] 2 = some e1 →
        Encoder.Initialize [1,2,3] 2 = some e2 →
        e1.GenerateAt r = e2.GenerateAt r :=
  C3_two_run_determinism [1,2,3] [1,2,3] 2 2 rfl rfl

/--
C4: identity rows — after a successful initialization, the generated
block for every identifier i < N equals the zero-padded message block i.
-/
theorem C4_identity_generate (msg : List Nat) (B : Nat) (e : Encoder) (i : Nat)
    (h : Encoder.Initialize msg B = some e) (hi : i < e.blockCount) :
    e.GenerateAt i = msgBlock msg B i := by
  obtain ⟨-, hBB, hNN, -, -⟩ := Encoder.Initialize_inv msg B e h
  rw [Encoder.GenerateAt, hBB, hNN]
  rw [hNN] at hi
  exact encoder_row_equation msg B e i h hi

theorem C4_identity_generate_witness :
    Encoder.Initialize (List.range 8) 2 = some encW ∧ (3 : Nat) < encW.blockCount ∧
      encW.GenerateAt 3 = msgBlock (List.range 8) 2 3 :=
  ⟨by decide, by decide,
    C4_identity_generate (List.range 8) 2 encW 3 (by decide) (by decide)⟩

/--
Invalid parameters (N = 0, B = 0, or N > 65535) make Initialize report
failure synchronously: the provable half of the spec's §7 error kind 1.
Whether parameter validity is also sufficient for readiness depends on
the empirically tuned seed table the spec leaves open (§4.1, §9), so no
claim theorem rests on this lemma.
-/
theorem Initialize_invalid_params (msg : List Nat) (B : Nat)
    (h : blockCount msg.length B = 0 ∨ B = 0 ∨ 65535 < blockCount msg.length B) :
    Encoder.Initialize msg B = none := by
  have hp : ¬ paramsOk msg.length B = true := by
    simp [paramsOk]
    omega
  rw [Encoder.Initialize, if_neg hp]

/--
C6: the dense solver fails outright on a column with no available pivot
(the Triangle failure of spec §4.4); with valid parameters, Initialize
succeeds exactly when the dense solve (GenerateCheckBlocks) succeeds —
so a Triangle failure propagates to an Initialize failure — and after a
successful Initialize, Generate cannot fail: it totally produces a block
of exactly B bytes for every identifier.
-/
theorem C6_triangle_failure_propagates (msg : List Nat) (B : Nat)
    (hp : paramsOk msg.length B = true) :
    (∀ (c : Nat) (rows : List GERow), pickPivot rows = none →
        gaussSolve B (c + 1) rows = none) ∧
      ((Encoder.Initialize msg B).isSome ↔ (GenerateCheckBlocks msg B).isSome) ∧
      ∀ e, Encoder.Initialize msg B = some e →
        ∀ r, (e.GenerateAt r).length = B := by
  refine ⟨?_, ?_, ?_⟩
  · intro c rows hpp
    rw [gaussSolve, hpp]
  · rw [Encoder.Initialize, if_pos hp]
    cases hg : GenerateCheckBlocks msg B <;> simp
  · intro e he r
    obtain ⟨-, hBB, -, -, -⟩ := Encoder.Initialize_inv msg B e he
    obtain ⟨-, hwfB, -⟩ := Encoder.checkBlocks_sound msg B e he
    rw [Encoder.GenerateAt, hBB]
    exact length_dotXor B _ _ hwfB

theorem C6_triangle_failure_propagates_witness :
    (∀ (c : Nat) (rows : List GERow), pickPivot rows = none →
        gaussSolve 2 (c + 1) rows = none) ∧
      ((Encoder.Initialize [222,173,190,239] 2).isSome ↔
        (GenerateCheckBlocks [222,173,190,239] 2).isSome) ∧
      ∀ e, Encoder.Initialize [222,173,190,239] 2 = some e →
        ∀ r, (e.GenerateAt r).length = 2 :=
  C6_triangle_failure_propagates [222,173,190,239] 2 (by decide)

/--
C8: degenerate single-block case — when 1 ≤ M ≤ B (N = 1), the encoder
initializes successfully and the generated block for every identifier r
(including r = 0 and all r ≥ 1) is the zero-padded message.
-/
theorem C8_single_block (msg : List Nat) (B r : Nat)
    (h1 : 1 ≤ msg.length) (h2 : msg.length ≤ B) :
    (Encoder.Initialize msg B).map (fun e => e.GenerateAt r) =
      some (padTo B msg) := by
  have hN : blockCount msg.length B = 1 := blockCount_eq_one _ _ h1 h2
  have hB : 1 ≤ B := le_trans h1 h2
  have hp : paramsOk msg.length B = true := by
    simp [paramsOk, hN]
    omega
  have hg := GenerateCheckBlocks_single msg B hN
  rw [Encoder.Initialize, if_pos hp, hg]
  show some ((Encoder.GenerateAt ⟨B, Wirehair.blockCount msg.length B,
    [msgBlock msg B 0], 0⟩ r)) = some (padTo B msg)
  rw [Encoder.GenerateAt]
  show some (dotXor B (rowCoeffs (Wirehair.blockCount msg.length B) r)
    [msgBlock msg B 0]) = some (padTo B msg)
  rw [hN, rowCoeffs_one, dotXor_cons_true, dotXor_nil_right,
    blockXor_zeroBlock (msgBlock msg B 0) (length_msgBlock msg B 0)]
  rw [msgBlock, Nat.zero_mul, List.drop_zero, List.take_of_length_le h2]

theorem C8_single_block_witness :
    (Encoder.Initialize [9,8,7] 5).map (fun e => e.GenerateAt 0) =
        some (padTo 5 [9,8,7]) ∧
      (Encoder.Initialize [9,8,7] 5).map (fun e => e.GenerateAt 7) =
        some (padTo 5 [9,8,7]) :=
  ⟨C8_single_block [9,8,7] 5 0 (by decide) (by decide),
    C8_single_block [9,8,7] 5 7 (by decide) (by decide)⟩

/--
C9: padding round trip — when M is not a multiple of B, the final
message block the encoder uses for all matrix work is the remaining
bytes zero-padded (with a strictly positive amount of padding), and the
decoder's finalize writes exactly M bytes, reproducing the original
message and truncating the padding.
-/
theorem C9_padding_roundtrip (msg : List Nat) (B : Nat) (e : Encoder)
    (hnd : ¬ (B ∣ msg.length)) (he : Encoder.Initialize msg B = some e) :
    (msgBlock msg B (blockCount msg.length B - 1) =
        msg.drop ((blockCount msg.length B - 1) * B) ++
          List.replicate (blockCount msg.length B * B - msg.length) 0 ∧
      0 < blockCount msg.length B * B - msg.length) ∧
      ∀ (ids : List Nat) (xs : List Block), Decoder.Decode msg.length B
          (ids.map (fun i => (i, e.GenerateAt i))) = some xs →
        (Decoder.Finalize msg.length B xs).length = msg.length ∧
          Decoder.Finalize msg.length B xs = msg := by
  obtain ⟨hp, -, -, -, -⟩ := Encoder.Initialize_inv msg B e he
  obtain ⟨hB, hN1, -⟩ := paramsOk_inv msg.length B hp
  have hle := le_blockCount_mul msg.length B hB
  have hsm : (blockCount msg.length B - 1) * B =
      blockCount msg.length B * B - B := Nat.sub_one_mul _ B
  have hBle : B ≤ blockCount msg.length B * B :=
    Nat.le_mul_of_pos_left B hN1
  have hne : msg.length ≠ blockCount msg.length B * B := by
    intro hEq
    apply hnd
    rw [hEq]
    exact dvd_mul_left B _
  have hup : blockCount msg.length B * B ≤ msg.length + B - 1 := by
    rw [blockCount]
    exact Nat.div_mul_le_self _ B
  set P := blockCount msg.length B * B with hP
  constructor
  · constructor
    · rw [msgBlock, padTo]
      have hdl := List.length_drop ((blockCount msg.length B - 1) * B) msg
      have htk : (msg.drop ((blockCount msg.length B - 1) * B)).take B =
          msg.drop ((blockCount msg.length B - 1) * B) :=
        List.take_of_length_le (by rw [hdl, hsm]; omega)
      rw [htk]
      congr 1
      rw [hdl, hsm]
      congr 1
      omega
    · omega
  · intro ids xs hdec
    have hfe := finalize_of_decode msg B e ids xs he hdec
    exact ⟨by rw [hfe], hfe⟩

theorem C9_padding_roundtrip_witness :
    0 < blockCount (List.range 7).length 2 * 2 - (List.range 7).length :=
  (C9_padding_roundtrip (List.range 7) 2 encW7 (by decide) (by decide)).1.2

/--
C10: Generate takes no identifier argument — the encoder holds the next
identifier in its state (starting at 0 after Initialize), so k
successive Generate calls emit exactly the blocks for the consecutive
identifiers 0…k−1.
-/
theorem C10_sequential_ids (msg : List Nat) (B : Nat) (e : Encoder) (k : Nat)
    (he : Encoder.Initialize msg B = some e) :
    e.GenerateList k = (List.range k).map (fun i => e.GenerateAt i) := by
  obtain ⟨-, -, -, hnext, -⟩ := Encoder.Initialize_inv msg B e he
  rw [Encoder.GenerateList_eq, hnext]
  simp

theorem C10_sequential_ids_witness :
    encW.GenerateList 3 = (List.range 3).map (fun i => encW.GenerateAt i) :=
  C10_sequential_ids (List.range 8) 2 encW 3 (by decide)

/-- Mark of a peeling column: unused, peel-solved by a row, or deferred
(spec §3 "Column ... a mark (unused / peel-solved / deferred)"). -/
inductive ColMark
  | unmarked
  | peeled (r : Nat)
  | deferredCol
deriving DecidableEq

/--
Mark of a peeling row: unused (unreferenced), peel-solved with its pivot
column, or deferred to the dense solver (spec §3 "Row ... a mutable
marks field (unused / peel-solved / deferred)").
-/
inductive RowMark
  | unusedRow
  | solvedRow (c : Nat)
  | deferredRow
deriving DecidableEq

/--
Modelled from the spec: §3 and §4.2 — the mutable peeling state: a mark
per column; a mark per row (the spec §3 row marks field); the stack of
peel-solved (row, column) pairs in solve order (spec §4.2 Result,
_peel_head_rows); and the list of deferred rows (_defer_head_rows /
_defer_row_count of src/Wirehair.hpp).
-/
structure PeelState where
  colMark : List ColMark
  rowMark : List RowMark
  solvedStack : List (Nat × Nat)
  deferRows : List Nat
deriving DecidableEq

/-- The live (still unmarked) columns a row references. -/
def liveColsOf (N : Nat) (s : PeelState) (r : Nat) : List Nat :=
  (sparseCols N r).filter
    (fun c => decide (s.colMark.getD c ColMark.unmarked = ColMark.unmarked))

/--
Modelled from the spec: §4.2 main loop — find a still-unused row with
exactly one live referenced column (the solvable-queue step, with the
queue order abstracted to a lowest-index scan).
-/
def findPeelRow (N : Nat) (s : PeelState) : List Nat → Option (Nat × Nat)
  | [] => none
  | r :: rs =>
    if s.rowMark.getD r RowMark.unusedRow = RowMark.unusedRow then
      match liveColsOf N s r with
      | [c] => some (r, c)
      | _ => findPeelRow N s rs
    else findPeelRow N s rs

/-- The live weight of a column: how many still-unused rows reference it. -/
def colWeight (N : Nat) (s : PeelState) (c : Nat) : Nat :=
  ((List.range N).filter (fun r =>
    decide (s.rowMark.getD r RowMark.unusedRow = RowMark.unusedRow) &&
      decide (c ∈ sparseCols N r))).length

/--
Modelled from the spec: §4.2 greedy deferral — select the unmarked
column of largest live weight, ties broken by lowest index.
-/
def greedyChoose (N : Nat) (s : PeelState) : Option Nat :=
  match (List.range N).filter
      (fun c => decide (s.colMark.getD c ColMark.unmarked = ColMark.unmarked)) with
  | [] => none
  | c :: cs =>
    some (cs.foldl (fun b c2 => if colWeight N s b < colWeight N s c2 then c2 else b) c)

/--
Modelled from the spec: §4.2 — the rows newly deferred by a transition:
still-unused rows whose live weight has dropped to zero ("rows that
drop to weight 0 are deferred ... the set of rows that never reached
weight 1 (the deferred rows)").
-/
def sweepNewlyDeferred (N : Nat) (s : PeelState) : List Nat :=
  (List.range N).filter (fun r =>
    decide (s.rowMark.getD r RowMark.unusedRow = RowMark.unusedRow) &&
      decide (liveColsOf N s r = []))

/--
Modelled from the spec: §4.2 — mark every newly weight-0 unused row as
deferred and link it into the deferred-row list (_defer_head_rows).
-/
def sweepRows (N : Nat) (s : PeelState) : PeelState :=
  ⟨s.colMark,
    (sweepNewlyDeferred N s).foldl (fun l r => l.set r RowMark.deferredRow) s.rowMark,
    s.solvedStack,
    sweepNewlyDeferred N s ++ s.deferRows⟩

/--
Modelled from the spec: §4.2 — one peeling transition: solve a weight-1
row (marking it peel-solved, pushing the (row, column) pair on the solve
stack and marking the column), or, when no such row exists, defer a
maximum-live-weight unmarked column; in either case rows dropping to
weight 0 are then deferred; identity once every column is marked.
-/
def peelStep (N : Nat) (s : PeelState) : PeelState :=
  match findPeelRow N s (List.range N) with
  | some (r, c) =>
    sweepRows N ⟨s.colMark.set c (ColMark.peeled r),
      s.rowMark.set r (RowMark.solvedRow c), (r, c) :: s.solvedStack, s.deferRows⟩
  | none =>
    match greedyChoose N s with
    | some c =>
      sweepRows N ⟨s.colMark.set c ColMark.deferredCol,
        s.rowMark, s.solvedStack, s.deferRows⟩
    | none => s

/-- Iterate the peeling transition a given number of times. -/
def peelLoop (N : Nat) : Nat → PeelState → PeelState
  | 0, s => s
  | fuel + 1, s => peelLoop N fuel (peelStep N s)

/-- The initial peeling state: all columns unmarked, all rows unused. -/
def initPeelState (N : Nat) : PeelState :=
  ⟨List.replicate N ColMark.unmarked, List.replicate N RowMark.unusedRow, [], []⟩

/--
Modelled from the spec: Encoder::PeelSetup and Encoder::GreedyPeeling
(their implementations are not in the repository) — run peeling
transitions until every column is marked; N steps suffice since each
step marks exactly one column.
-/
def GreedyPeeling (N : Nat) : PeelState := peelLoop N N (initPeelState N)

/-- A column peel-solved (by some row) in a peeling state. -/
def isPeeledCol (s : PeelState) (c : Nat) : Prop :=
  ∃ r, s.colMark.getD c ColMark.unmarked = ColMark.peeled r

/-- A column deferred to the dense solver in a peeling state. -/
def isDeferredCol (s : PeelState) (c : Nat) : Prop :=
  s.colMark.getD c ColMark.unmarked = ColMark.deferredCol

/-- Count of still-unmarked columns. -/
def unmarkedCount (s : PeelState) : Nat :=
  s.colMark.countP (fun m => decide (m = ColMark.unmarked))

theorem getD_set_self {α : Type} :
    ∀ (l : List α) (i : Nat) (a d : α), i < l.length →
      (l.set i a).getD i d = a := by
  intro l
  induction l with
  | nil => intro i a d h; simp at h
  | cons x xs ih =>
    intro i a d h
    cases i with
    | zero => rfl
    | succ i => exact ih i a d (by simpa using h)

theorem getD_set_ne {α : Type} :
    ∀ (l : List α) (i j : Nat) (a d : α), i ≠ j →
      (l.set i a).getD j d = l.getD j d := by
  intro l
  induction l with
  | nil => intro i j a d _; rfl
  | cons x xs ih =>
    intro i j a d hij
    cases i with
    | zero =>
      cases j with
      | zero => exact absurd rfl hij
      | succ j => rfl
    | succ i =>
      cases j with
      | zero => rfl
      | succ j => exact ih i j a d (by omega)

theorem getD_eq_default {α : Type} :
    ∀ (l : List α) (i : Nat) (d : α), l.length ≤ i → l.getD i d = d := by
  intro l
  induction l with
  | nil => intro i d _; rfl
  | cons x xs ih =>
    intro i d h
    cases i with
    | zero => simp at h
    | succ i => exact ih i d (by simpa using h)

theorem getD_mem {α : Type} :
    ∀ (l : List α) (i : Nat) (d : α), i < l.length → l.getD i d ∈ l := by
  intro l
  induction l with
  | nil => intro i d h; simp at h
  | cons x xs ih =>
    intro i d h
    cases i with
    | zero => exact List.mem_cons_self x xs
    | succ i => exact List.mem_cons_of_mem x (ih i d (by simpa using h))

theorem getD_replicate_self {α : Type} (a : α) :
    ∀ (n i : Nat), (List.replicate n a).getD i a = a := by
  intro n
  induction n with
  | zero => intro i; rfl
  | succ n ih =>
    intro i
    cases i with
    | zero => rfl
    | succ i => exact ih i

theorem countP_set_unmark :
    ∀ (l : List ColMark) (i : Nat) (m : ColMark), i < l.length →
      l.getD i ColMark.unmarked = ColMark.unmarked → m ≠ ColMark.unmarked →
      (l.set i m).countP (fun x => decide (x = ColMark.unmarked)) + 1 =
        l.countP (fun x => decide (x = ColMark.unmarked)) := by
  intro l
  induction l with
  | nil => intro i m h; simp at h
  | cons x xs ih =>
    intro i m hi hu hm
    cases i with
    | zero =>
      have hx : x = ColMark.unmarked := hu
      subst hx
      simp [List.countP_cons, hm]
    | succ i =>
      have hi2 : i < xs.length := by simpa using hi
      have hrec := ih i m hi2 hu hm
      show (x :: xs.set i m).countP (fun x => decide (x = ColMark.unmarked)) + 1 =
        (x :: xs).countP (fun x => decide (x = ColMark.unmarked))
      rw [List.countP_cons, List.countP_cons]
      omega

theorem countP_replicate_unmarked :
    ∀ n : Nat, (List.replicate n ColMark.unmarked).countP
      (fun m => decide (m = ColMark.unmarked)) = n := by
  intro n
  induction n with
  | zero => rfl
  | succ n ih => simp [List.replicate_succ, List.countP_cons, ih]

theorem length_foldl_set {α : Type} (v : α) :
    ∀ (rs : List Nat) (l : List α),
      (rs.foldl (fun acc r => acc.set r v) l).length = l.length := by
  intro rs
  induction rs with
  | nil => intro l; rfl
  | cons r rs ih =>
    intro l
    rw [List.foldl_cons, ih, List.length_set]

theorem getD_foldl_set {α : Type} (v : α) :
    ∀ (rs : List Nat) (l : List α) (i : Nat) (d : α),
      (∀ r ∈ rs, r < l.length) →
      (rs.foldl (fun acc r => acc.set r v) l).getD i d =
        if i ∈ rs then v else l.getD i d := by
  intro rs
  induction rs with
  | nil => intro l i d _; simp
  | cons r rs ih =>
    intro l i d h
    rw [List.foldl_cons]
    have hbound : ∀ q ∈ rs, q < (l.set r v).length := by
      intro q hq
      rw [List.length_set]
      exact h q (List.mem_cons_of_mem r hq)
    rw [ih (l.set r v) i d hbound]
    by_cases hir : i ∈ rs
    · rw [if_pos hir, if_pos (List.mem_cons_of_mem r hir)]
    · rw [if_neg hir]
      by_cases hieq : i = r
      · subst hieq
        rw [getD_set_self l i v d (h i (List.mem_cons_self i rs))]
        rw [if_pos (List.mem_cons_self i rs)]
      · rw [getD_set_ne l r i v d (fun hh => hieq hh.symm)]
        rw [if_neg (fun hmem => by
          rcases List.mem_cons.mp hmem with h1 | h1
          · exact hieq h1
          · exact hir h1)]

theorem mem_sweepNewlyDeferred (N : Nat) (s : PeelState) (r : Nat) :
    r ∈ sweepNewlyDeferred N s ↔
      r < N ∧ s.rowMark.getD r RowMark.unusedRow = RowMark.unusedRow ∧
        liveColsOf N s r = [] := by
  rw [sweepNewlyDeferred, List.mem_filter, List.mem_range]
  constructor
  · rintro ⟨h1, h2⟩
    simp only [Bool.and_eq_true, decide_eq_true_eq] at h2
    exact ⟨h1, h2.1, h2.2⟩
  · rintro ⟨h1, h2, h3⟩
    refine ⟨h1, ?_⟩
    simp only [Bool.and_eq_true, decide_eq_true_eq]
    exact ⟨h2, h3⟩

theorem sweepRows_rowMark_getD (N : Nat) (s : PeelState)
    (hlen : s.rowMark.length = N) (r : Nat) :
    (sweepRows N s).rowMark.getD r RowMark.unusedRow =
      if r ∈ sweepNewlyDeferred N s then RowMark.deferredRow
      else s.rowMark.getD r RowMark.unusedRow := by
  show ((sweepNewlyDeferred N s).foldl (fun l r => l.set r RowMark.deferredRow)
    s.rowMark).getD r RowMark.unusedRow = _
  exact getD_foldl_set RowMark.deferredRow (sweepNewlyDeferred N s) s.rowMark r
    RowMark.unusedRow
    (fun q hq => by
      rw [hlen]
      exact ((mem_sweepNewlyDeferred N s q).mp hq).1)

/--
The invariant the peeling transitions preserve: sizes are N; the row
marks, the solve stack and the deferred-row list agree (a row is marked
peel-solved with pivot c exactly when (r, c) is on the stack, and marked
deferred exactly when it is in the deferred list); every solved row's
pivot is one of its own referenced columns, in range, whose column mark
names exactly that row; and a still-unused row always has live columns.
-/
def PeelInv (N : Nat) (s : PeelState) : Prop :=
  s.colMark.length = N ∧ s.rowMark.length = N ∧
    (∀ r c, s.rowMark.getD r RowMark.unusedRow = RowMark.solvedRow c ↔
      (r, c) ∈ s.solvedStack) ∧
    (∀ r c, s.rowMark.getD r RowMark.unusedRow = RowMark.solvedRow c →
      r < N ∧ c < N ∧ c ∈ sparseCols N r ∧
        s.colMark.getD c ColMark.unmarked = ColMark.peeled r) ∧
    (∀ r, s.rowMark.getD r RowMark.unusedRow = RowMark.deferredRow ↔
      r ∈ s.deferRows) ∧
    (∀ r, r < N → s.rowMark.getD r RowMark.unusedRow = RowMark.unusedRow →
      liveColsOf N s r ≠ [])

theorem findPeelRow_some (N : Nat) (s : PeelState) :
    ∀ (cand : List Nat) (r c : Nat), findPeelRow N s cand = some (r, c) →
      r ∈ cand ∧ s.rowMark.getD r RowMark.unusedRow = RowMark.unusedRow ∧
        liveColsOf N s r = [c] := by
  intro cand
  induction cand with
  | nil => intro r c h; simp [findPeelRow] at h
  | cons r0 rs ih =>
    intro r c h
    rw [findPeelRow] at h
    by_cases ha : s.rowMark.getD r0 RowMark.unusedRow = RowMark.unusedRow
    · rw [if_pos ha] at h
      cases hl : liveColsOf N s r0 with
      | nil =>
        rw [hl] at h
        obtain ⟨hmem, hact, hlive⟩ := ih r c h
        exact ⟨List.mem_cons_of_mem r0 hmem, hact, hlive⟩
      | cons c0 cs =>
        cases cs with
        | nil =>
          rw [hl] at h
          simp only [Option.some.injEq, Prod.mk.injEq] at h
          obtain ⟨hr, hc⟩ := h
          subst hr
          subst hc
          exact ⟨List.mem_cons_self _ _, ha, hl⟩
        | cons c1 cs2 =>
          rw [hl] at h
          obtain ⟨hmem, hact, hlive⟩ := ih r c h
          exact ⟨List.mem_cons_of_mem r0 hmem, hact, hlive⟩
    · rw [if_neg ha] at h
      obtain ⟨hmem, hact, hlive⟩ := ih r c h
      exact ⟨List.mem_cons_of_mem r0 hmem, hact, hlive⟩

theorem liveColsOf_eq_nil (N : Nat) (s : PeelState) (r : Nat) (hN : 1 ≤ N)
    (hlen : s.colMark.length = N) (h0 : unmarkedCount s = 0) :
    liveColsOf N s r = [] := by
  rw [liveColsOf, List.filter_eq_nil_iff]
  intro c hc
  have hcN : c < N := sparseCols_lt N r hN c hc
  have hmem : s.colMark.getD c ColMark.unmarked ∈ s.colMark :=
    getD_mem s.colMark c ColMark.unmarked (by omega)
  have hnu := (List.countP_eq_zero.mp h0) _ hmem
  simpa using hnu

theorem findPeelRow_eq_none (N : Nat) (s : PeelState)
    (h : ∀ r, liveColsOf N s r = []) :
    ∀ cand : List Nat, findPeelRow N s cand = none := by
  intro cand
  induction cand with
  | nil => rfl
  | cons r0 rs ih =>
    rw [findPeelRow]
    by_cases ha : s.rowMark.getD r0 RowMark.unusedRow = RowMark.unusedRow
    · rw [if_pos ha, h r0]
      exact ih
    · rw [if_neg ha]
      exact ih

theorem foldl_maxWeight_mem (N : Nat) (s : PeelState) :
    ∀ (cs : List Nat) (b : Nat),
      cs.foldl (fun b c2 => if colWeight N s b < colWeight N s c2 then c2 else b) b ∈
        b :: cs := by
  intro cs
  induction cs with
  | nil => intro b; exact List.mem_cons_self b []
  | cons c2 cs ih =>
    intro b
    rw [List.foldl_cons]
    by_cases hw : colWeight N s b < colWeight N s c2
    · rw [if_pos hw]
      rcases List.mem_cons.mp (ih c2) with h | h
      · rw [h]
        exact List.mem_cons_of_mem b (List.mem_cons_self c2 cs)
      · exact List.mem_cons_of_mem b (List.mem_cons_of_mem c2 h)
    · rw [if_neg hw]
      rcases List.mem_cons.mp (ih b) with h | h
      · rw [h]
        exact List.mem_cons_self b (c2 :: cs)
      · exact List.mem_cons_of_mem b (List.mem_cons_of_mem c2 h)

theorem greedyChoose_mem (N : Nat) (s : PeelState) (c : Nat)
    (h : greedyChoose N s = some c) :
    c < N ∧ s.colMark.getD c ColMark.unmarked = ColMark.unmarked := by
  rw [greedyChoose] at h
  cases hf : (List.range N).filter
      (fun c => decide (s.colMark.getD c ColMark.unmarked = ColMark.unmarked)) with
  | nil => rw [hf] at h; simp at h
  | cons c0 cs =>
    rw [hf] at h
    simp only [Option.some.injEq] at h
    have hmem := foldl_maxWeight_mem N s cs c0
    rw [h] at hmem
    have hcf : c ∈ (List.range N).filter
        (fun c => decide (s.colMark.getD c ColMark.unmarked = ColMark.unmarked)) := by
      rw [hf]; exact hmem
    have := List.of_mem_filter hcf
    have hrange := List.mem_range.mp (List.mem_of_mem_filter hcf)
    exact ⟨hrange, by simpa using this⟩

theorem greedyChoose_eq_none (N : Nat) (s : PeelState)
    (h : ∀ c, c < N → s.colMark.getD c ColMark.unmarked ≠ ColMark.unmarked) :
    greedyChoose N s = none := by
  rw [greedyChoose]
  have hf : (List.range N).filter
      (fun c => decide (s.colMark.getD c ColMark.unmarked = ColMark.unmarked)) = [] := by
    rw [List.filter_eq_nil_iff]
    intro c hc
    simpa using h c (List.mem_range.mp hc)
  rw [hf]

theorem getD_eq_get {α : Type} :
    ∀ (l : List α) (i : Nat) (d : α) (h : i < l.length), l.getD i d = l.get ⟨i, h⟩ := by
  intro l
  induction l with
  | nil => intro i d h; simp at h
  | cons x xs ih =>
    intro i d h
    cases i with
    | zero => rfl
    | succ i => exact ih i d (by simpa using h)

theorem unmarkedCount_init (N : Nat) : unmarkedCount (initPeelState N) = N :=
  countP_replicate_unmarked N

theorem greedyChoose_none_imp (N : Nat) (s : PeelState)
    (hg : greedyChoose N s = none) :
    ∀ c, c < N → s.colMark.getD c ColMark.unmarked ≠ ColMark.unmarked := by
  intro c hc hun
  rw [greedyChoose] at hg
  cases hff : (List.range N).filter
      (fun c => decide (s.colMark.getD c ColMark.unmarked = ColMark.unmarked)) with
  | nil =>
    have hcf : c ∈ (List.range N).filter
        (fun c => decide (s.colMark.getD c ColMark.unmarked = ColMark.unmarked)) :=
      List.mem_filter.mpr ⟨List.mem_range.mpr hc, by simpa using hun⟩
    rw [hff] at hcf
    simp at hcf
  | cons c0 cs =>
    rw [hff] at hg
    simp at hg

theorem peelStep_colMark_length (N : Nat) (s : PeelState) :
    (peelStep N s).colMark.length = s.colMark.length := by
  rw [peelStep]
  cases hf : findPeelRow N s (List.range N) with
  | some rc =>
    obtain ⟨r, c⟩ := rc
    simp [sweepRows, List.length_set]
  | none =>
    cases hg : greedyChoose N s with
    | some c => simp [sweepRows, List.length_set]
    | none => rfl

/--
Sweeping the newly weight-0 rows into the deferred list re-establishes
the full invariant from its mark/stack/list agreement clauses.
-/
theorem sweepRows_inv (N : Nat) (s : PeelState)
    (h1 : s.colMark.length = N) (h2 : s.rowMark.length = N)
    (h3 : ∀ r c, s.rowMark.getD r RowMark.unusedRow = RowMark.solvedRow c ↔
      (r, c) ∈ s.solvedStack)
    (h4 : ∀ r c, s.rowMark.getD r RowMark.unusedRow = RowMark.solvedRow c →
      r < N ∧ c < N ∧ c ∈ sparseCols N r ∧
        s.colMark.getD c ColMark.unmarked = ColMark.peeled r)
    (h5 : ∀ r, s.rowMark.getD r RowMark.unusedRow = RowMark.deferredRow ↔
      r ∈ s.deferRows) :
    PeelInv N (sweepRows N s) := by
  refine ⟨h1, ?_, ?_, ?_, ?_, ?_⟩
  · show ((sweepNewlyDeferred N s).foldl
      (fun l r => l.set r RowMark.deferredRow) s.rowMark).length = N
    rw [length_foldl_set]
    exact h2
  · intro r c
    rw [sweepRows_rowMark_getD N s h2 r]
    show _ ↔ (r, c) ∈ s.solvedStack
    by_cases hn : r ∈ sweepNewlyDeferred N s
    · rw [if_pos hn]
      constructor
      · intro hcon; exact RowMark.noConfusion hcon
      · intro hst
        have hun := ((mem_sweepNewlyDeferred N s r).mp hn).2.1
        have hsv := (h3 r c).mpr hst
        rw [hun] at hsv
        exact RowMark.noConfusion hsv
    · rw [if_neg hn]
      exact h3 r c
  · intro r c hrc
    rw [sweepRows_rowMark_getD N s h2 r] at hrc
    by_cases hn : r ∈ sweepNewlyDeferred N s
    · rw [if_pos hn] at hrc
      exact absurd hrc (fun hh => RowMark.noConfusion hh)
    · rw [if_neg hn] at hrc
      exact h4 r c hrc
  · intro r
    rw [sweepRows_rowMark_getD N s h2 r]
    show _ ↔ r ∈ sweepNewlyDeferred N s ++ s.deferRows
    by_cases hn : r ∈ sweepNewlyDeferred N s
    · rw [if_pos hn]
      constructor
      · intro _; exact List.mem_append_left _ hn
      · intro _; rfl
    · rw [if_neg hn]
      constructor
      · intro hdef
        exact List.mem_append_right _ ((h5 r).mp hdef)
      · intro hmem
        rcases List.mem_append.mp hmem with hmm | hmm
        · exact absurd hmm hn
        · exact (h5 r).mpr hmm
  · intro r hrN hun
    rw [sweepRows_rowMark_getD N s h2 r] at hun
    by_cases hn : r ∈ sweepNewlyDeferred N s
    · rw [if_pos hn] at hun
      exact absurd hun (fun hh => RowMark.noConfusion hh)
    · rw [if_neg hn] at hun
      intro hlive
      have hlive2 : liveColsOf N s r = [] := hlive
      exact hn ((mem_sweepNewlyDeferred N s r).mpr ⟨hrN, hun, hlive2⟩)

theorem peelStep_inv (N : Nat) (s : PeelState) (hinv : PeelInv N s) :
    PeelInv N (peelStep N s) := by
  obtain ⟨hcl, hrl, h3, h4, h5, hU⟩ := hinv
  rw [peelStep]
  cases hf : findPeelRow N s (List.range N) with
  | some rc =>
    obtain ⟨r0, c0⟩ := rc
    obtain ⟨hr0mem, hr0un, hr0live⟩ := findPeelRow_some N s _ r0 c0 hf
    have hr0N : r0 < N := List.mem_range.mp hr0mem
    have hN : 1 ≤ N := by omega
    have hc0 : c0 ∈ liveColsOf N s r0 := by
      rw [hr0live]; exact List.mem_cons_self _ _
    have hc0sp : c0 ∈ sparseCols N r0 := List.mem_of_mem_filter hc0
    have hc0un : s.colMark.getD c0 ColMark.unmarked = ColMark.unmarked := by
      simpa using List.of_mem_filter hc0
    have hc0N : c0 < N := sparseCols_lt N r0 hN c0 hc0sp
    apply sweepRows_inv
    · simp [List.length_set, hcl]
    · simp [List.length_set, hrl]
    · intro r c
      show (s.rowMark.set r0 (RowMark.solvedRow c0)).getD r RowMark.unusedRow =
        RowMark.solvedRow c ↔ (r, c) ∈ (r0, c0) :: s.solvedStack
      by_cases hr : r = r0
      · subst hr
        rw [getD_set_self s.rowMark r (RowMark.solvedRow c0) RowMark.unusedRow
          (by omega)]
        constructor
        · intro hh
          have hcc : c0 = c := by injection hh
          subst hcc
          exact List.mem_cons_self _ _
        · intro hmem
          rcases List.mem_cons.mp hmem with hmm | hmm
          · have hcc : c = c0 := (Prod.ext_iff.mp hmm).2
            subst hcc
            rfl
          · have hsv := (h3 _ _).mpr hmm
            rw [hr0un] at hsv
            exact absurd hsv (fun hh => RowMark.noConfusion hh)
      · rw [getD_set_ne s.rowMark r0 r (RowMark.solvedRow c0) RowMark.unusedRow
          (fun hh => hr hh.symm)]
        rw [h3 r c]
        constructor
        · intro hst
          exact List.mem_cons_of_mem _ hst
        · intro hmem
          rcases List.mem_cons.mp hmem with hmm | hmm
          · exact absurd (Prod.ext_iff.mp hmm).1 hr
          · exact hmm
    · intro r c hrc
      have hrc2 : (s.rowMark.set r0 (RowMark.solvedRow c0)).getD r
          RowMark.unusedRow = RowMark.solvedRow c := hrc
      by_cases hr : r = r0
      · subst hr
        rw [getD_set_self s.rowMark r (RowMark.solvedRow c0) RowMark.unusedRow
          (by omega)] at hrc2
        have hcc : c0 = c := by injection hrc2
        subst hcc
        refine ⟨hr0N, hc0N, hc0sp, ?_⟩
        show (s.colMark.set c0 (ColMark.peeled r)).getD c0 ColMark.unmarked =
          ColMark.peeled r
        rw [getD_set_self s.colMark c0 (ColMark.peeled r) ColMark.unmarked
          (by omega)]
      · rw [getD_set_ne s.rowMark r0 r (RowMark.solvedRow c0) RowMark.unusedRow
          (fun hh => hr hh.symm)] at hrc2
        obtain ⟨hrN, hcN, hcsp, hcmark⟩ := h4 r c hrc2
        refine ⟨hrN, hcN, hcsp, ?_⟩
        show (s.colMark.set c0 (ColMark.peeled r0)).getD c ColMark.unmarked =
          ColMark.peeled r
        have hcc0 : c0 ≠ c := by
          intro hh
          rw [hh] at hc0un
          rw [hcmark] at hc0un
          exact ColMark.noConfusion hc0un
        rw [getD_set_ne s.colMark c0 c (ColMark.peeled r0) ColMark.unmarked hcc0]
        exact hcmark
    · intro r
      show (s.rowMark.set r0 (RowMark.solvedRow c0)).getD r RowMark.unusedRow =
        RowMark.deferredRow ↔ r ∈ s.deferRows
      by_cases hr : r = r0
      · subst hr
        rw [getD_set_self s.rowMark r (RowMark.solvedRow c0) RowMark.unusedRow
          (by omega)]
        constructor
        · intro hh
          exact absurd hh (fun h2 => RowMark.noConfusion h2)
        · intro hmem
          have hdf := (h5 r).mpr hmem
          rw [hr0un] at hdf
          exact absurd hdf (fun h2 => RowMark.noConfusion h2)
      · rw [getD_set_ne s.rowMark r0 r (RowMark.solvedRow c0) RowMark.unusedRow
          (fun hh => hr hh.symm)]
        exact h5 r
  | none =>
    cases hg : greedyChoose N s with
    | some c0 =>
      obtain ⟨hc0N, hc0un⟩ := greedyChoose_mem N s c0 hg
      apply sweepRows_inv
      · simp [List.length_set, hcl]
      · exact hrl
      · exact h3
      · intro r c hrc
        obtain ⟨hrN, hcN, hcsp, hcmark⟩ := h4 r c hrc
        refine ⟨hrN, hcN, hcsp, ?_⟩
        show (s.colMark.set c0 ColMark.deferredCol).getD c ColMark.unmarked =
          ColMark.peeled r
        have hcc0 : c0 ≠ c := by
          intro hh
          rw [hh] at hc0un
          rw [hcmark] at hc0un
          exact ColMark.noConfusion hc0un
        rw [getD_set_ne s.colMark c0 c ColMark.deferredCol ColMark.unmarked hcc0]
        exact hcmark
      · exact h5
    | none => exact ⟨hcl, hrl, h3, h4, h5, hU⟩

theorem peelStep_marks (N : Nat) (s : PeelState) (hcl : s.colMark.length = N)
    (hpos : 0 < unmarkedCount s) :
    unmarkedCount (peelStep N s) + 1 = unmarkedCount s := by
  rw [peelStep]
  cases hf : findPeelRow N s (List.range N) with
  | some rc =>
    obtain ⟨r0, c0⟩ := rc
    obtain ⟨hr0mem, -, hr0live⟩ := findPeelRow_some N s _ r0 c0 hf
    have hN : 1 ≤ N := by
      have := List.mem_range.mp hr0mem
      omega
    have hc0 : c0 ∈ liveColsOf N s r0 := by
      rw [hr0live]; exact List.mem_cons_self _ _
    have hc0sp : c0 ∈ sparseCols N r0 := List.mem_of_mem_filter hc0
    have hc0un : s.colMark.getD c0 ColMark.unmarked = ColMark.unmarked := by
      simpa using List.of_mem_filter hc0
    have hc0N : c0 < N := sparseCols_lt N r0 hN c0 hc0sp
    exact countP_set_unmark s.colMark c0 _ (by omega) hc0un
      (fun h => ColMark.noConfusion h)
  | none =>
    cases hg : greedyChoose N s with
    | some c0 =>
      obtain ⟨hc0N, hc0un⟩ := greedyChoose_mem N s c0 hg
      exact countP_set_unmark s.colMark c0 _ (by omega) hc0un
        (fun h => ColMark.noConfusion h)
    | none =>
      exfalso
      obtain ⟨a, hamem, ha⟩ := List.countP_pos_iff.mp hpos
      have ha2 : a = ColMark.unmarked := by simpa using ha
      subst ha2
      obtain ⟨i, hi⟩ := List.mem_iff_get.mp hamem
      have hgd : s.colMark.getD i.val ColMark.unmarked = ColMark.unmarked := by
        rw [getD_eq_get s.colMark i.val ColMark.unmarked i.isLt]
        exact hi
      exact greedyChoose_none_imp N s hg i.val (by
        have := i.isLt
        omega) hgd

theorem peelLoop_inv (N : Nat) :
    ∀ (fuel : Nat) (s : PeelState), PeelInv N s → PeelInv N (peelLoop N fuel s) := by
  intro fuel
  induction fuel with
  | zero => intro s h; exact h
  | succ f ih => intro s h; exact ih _ (peelStep_inv N s h)

theorem peelLoop_zero_unmarked (N : Nat) :
    ∀ (fuel : Nat) (s : PeelState), s.colMark.length = N →
      unmarkedCount s ≤ fuel → unmarkedCount (peelLoop N fuel s) = 0 := by
  intro fuel
  induction fuel with
  | zero =>
    intro s hlen h
    rw [peelLoop]
    omega
  | succ f ih =>
    intro s hlen h
    rw [peelLoop]
    by_cases h0 : unmarkedCount s = 0
    · have hgc : greedyChoose N s = none := by
        apply greedyChoose_eq_none
        intro c hc hun
        have hmem := getD_mem s.colMark c ColMark.unmarked (by omega)
        have hnu := List.countP_eq_zero.mp h0 _ hmem
        rw [hun] at hnu
        simp at hnu
      have hfr : findPeelRow N s (List.range N) = none := by
        rcases Nat.eq_zero_or_pos N with hN | hN
        · subst hN; rfl
        · exact findPeelRow_eq_none N s
            (fun r => liveColsOf_eq_nil N s r hN hlen h0) _
      have hstep : peelStep N s = s := by
        rw [peelStep, hfr, hgc]
      rw [hstep]
      exact ih s hlen (by omega)
    · have hdec := peelStep_marks N s hlen (by omega)
      have hlen2 : (peelStep N s).colMark.length = N := by
        rw [peelStep_colMark_length]; exact hlen
      exact ih _ hlen2 (by omega)

theorem initPeelState_inv (N : Nat) : PeelInv N (initPeelState N) := by
  refine ⟨by simp [initPeelState], by simp [initPeelState], ?_, ?_, ?_, ?_⟩
  · intro r c
    constructor
    · intro hh
      have hh2 : (List.replicate N RowMark.unusedRow).getD r RowMark.unusedRow =
        RowMark.solvedRow c := hh
      rw [getD_replicate_self RowMark.unusedRow N r] at hh2
      exact RowMark.noConfusion hh2
    · intro hmem
      have hmem2 : (r, c) ∈ ([] : List (Nat × Nat)) := hmem
      exact absurd hmem2 (List.not_mem_nil _)
  · intro r c hrc
    have hh2 : (List.replicate N RowMark.unusedRow).getD r RowMark.unusedRow =
      RowMark.solvedRow c := hrc
    rw [getD_replicate_self RowMark.unusedRow N r] at hh2
    exact absurd hh2 (fun hx => RowMark.noConfusion hx)
  · intro r
    constructor
    · intro hh
      have hh2 : (List.replicate N RowMark.unusedRow).getD r RowMark.unusedRow =
        RowMark.deferredRow := hh
      rw [getD_replicate_self RowMark.unusedRow N r] at hh2
      exact absurd hh2 (fun hx => RowMark.noConfusion hx)
    · intro hmem
      have hmem2 : r ∈ ([] : List Nat) := hmem
      exact absurd hmem2 (List.not_mem_nil _)
  · intro r hrN hun
    have hfl : liveColsOf N (initPeelState N) r = sparseCols N r := by
      rw [liveColsOf]
      apply List.filter_eq_self.mpr
      intro c _
      have hgc : (initPeelState N).colMark.getD c ColMark.unmarked =
        ColMark.unmarked := getD_replicate_self ColMark.unmarked N c
      exact decide_eq_true hgc
    rw [hfl]
    exact sparseCols_ne_nil N r

/--
C7: at the end of peeling, every column in {0…N−1} is marked either
peel-solved or deferred and never both — the peel-solved and deferred
columns together are exactly {0…N−1}; and every row is in exactly one
of the three states: peel-solved (on the solve stack, with a unique
pivot column drawn from its own references), deferred (in the
deferred-row list), or unreferenced (still unused) — the last being
empty once peeling completes.
-/
theorem C7_peeling_invariant (N : Nat) :
    (∀ c, c < N →
        (isPeeledCol (GreedyPeeling N) c ∨ isDeferredCol (GreedyPeeling N) c) ∧
          ¬ (isPeeledCol (GreedyPeeling N) c ∧ isDeferredCol (GreedyPeeling N) c)) ∧
      (∀ c, isPeeledCol (GreedyPeeling N) c ∨ isDeferredCol (GreedyPeeling N) c →
        c < N) ∧
      (∀ r, r < N →
        ((∃ c, (r, c) ∈ (GreedyPeeling N).solvedStack) ∨
            r ∈ (GreedyPeeling N).deferRows ∨
            (GreedyPeeling N).rowMark.getD r RowMark.unusedRow =
              RowMark.unusedRow) ∧
          ¬ ((∃ c, (r, c) ∈ (GreedyPeeling N).solvedStack) ∧
              r ∈ (GreedyPeeling N).deferRows) ∧
          ¬ ((∃ c, (r, c) ∈ (GreedyPeeling N).solvedStack) ∧
              (GreedyPeeling N).rowMark.getD r RowMark.unusedRow =
                RowMark.unusedRow) ∧
          ¬ (r ∈ (GreedyPeeling N).deferRows ∧
              (GreedyPeeling N).rowMark.getD r RowMark.unusedRow =
                RowMark.unusedRow)) ∧
      (∀ r, r < N →
        (GreedyPeeling N).rowMark.getD r RowMark.unusedRow ≠ RowMark.unusedRow) ∧
      (∀ r c1 c2, (r, c1) ∈ (GreedyPeeling N).solvedStack →
        (r, c2) ∈ (GreedyPeeling N).solvedStack → c1 = c2) ∧
      (∀ r1 r2 c, (r1, c) ∈ (GreedyPeeling N).solvedStack →
        (r2, c) ∈ (GreedyPeeling N).solvedStack → r1 = r2) ∧
      (∀ r c, (r, c) ∈ (GreedyPeeling N).solvedStack →
        r < N ∧ (GreedyPeeling N).rowMark.getD r RowMark.unusedRow =
            RowMark.solvedRow c ∧
          c ∈ sparseCols N r ∧ isPeeledCol (GreedyPeeling N) c) := by
  have hinv : PeelInv N (GreedyPeeling N) :=
    peelLoop_inv N N (initPeelState N) (initPeelState_inv N)
  obtain ⟨hcl, hrl, h3, h4, h5, hU⟩ := hinv
  have h0 : unmarkedCount (GreedyPeeling N) = 0 :=
    peelLoop_zero_unmarked N N (initPeelState N) (by simp [initPeelState])
      (by rw [unmarkedCount_init])
  have hnoU : ∀ r, r < N →
      (GreedyPeeling N).rowMark.getD r RowMark.unusedRow ≠ RowMark.unusedRow := by
    intro r hrN hun
    have hN : 1 ≤ N := by omega
    exact hU r hrN hun (liveColsOf_eq_nil N (GreedyPeeling N) r hN hcl h0)
  refine ⟨?_, ?_, ?_, hnoU, ?_, ?_, ?_⟩
  · intro c hc
    constructor
    · have hmem := getD_mem (GreedyPeeling N).colMark c ColMark.unmarked (by omega)
      have hnu := List.countP_eq_zero.mp h0 _ hmem
      cases hmk : (GreedyPeeling N).colMark.getD c ColMark.unmarked with
      | unmarked => rw [hmk] at hnu; simp at hnu
      | peeled r => exact Or.inl ⟨r, hmk⟩
      | deferredCol => exact Or.inr hmk
    · rintro ⟨⟨r, hp⟩, hd⟩
      have hd2 : (GreedyPeeling N).colMark.getD c ColMark.unmarked =
        ColMark.deferredCol := hd
      rw [hp] at hd2
      exact ColMark.noConfusion hd2
  · intro c hpd
    by_contra hge
    have hdef : (GreedyPeeling N).colMark.getD c ColMark.unmarked = ColMark.unmarked :=
      getD_eq_default _ c _ (by omega)
    rcases hpd with ⟨r, hp⟩ | hd
    · rw [hdef] at hp
      exact ColMark.noConfusion hp
    · have hd2 : (GreedyPeeling N).colMark.getD c ColMark.unmarked =
        ColMark.deferredCol := hd
      rw [hdef] at hd2
      exact ColMark.noConfusion hd2
  · intro r hrN
    refine ⟨?_, ?_, ?_, ?_⟩
    · cases hmk : (GreedyPeeling N).rowMark.getD r RowMark.unusedRow with
      | unusedRow => exact Or.inr (Or.inr rfl)
      | solvedRow c => exact Or.inl ⟨c, (h3 r c).mp hmk⟩
      | deferredRow => exact Or.inr (Or.inl ((h5 r).mp hmk))
    · rintro ⟨⟨c, hst⟩, hdef⟩
      have hm1 := (h3 r c).mpr hst
      have hm2 := (h5 r).mpr hdef
      rw [hm1] at hm2
      exact RowMark.noConfusion hm2
    · rintro ⟨⟨c, hst⟩, hun⟩
      have hm1 := (h3 r c).mpr hst
      rw [hun] at hm1
      exact RowMark.noConfusion hm1
    · rintro ⟨hdef, hun⟩
      have hm2 := (h5 r).mpr hdef
      rw [hun] at hm2
      exact RowMark.noConfusion hm2
  · intro r c1 c2 hs1 hs2
    have hm1 := (h3 r c1).mpr hs1
    have hm2 := (h3 r c2).mpr hs2
    rw [hm1] at hm2
    injection hm2
  · intro r1 r2 c hs1 hs2
    have hm1 := (h3 r1 c).mpr hs1
    have hm2 := (h3 r2 c).mpr hs2
    obtain ⟨-, -, -, hk1⟩ := h4 r1 c hm1
    obtain ⟨-, -, -, hk2⟩ := h4 r2 c hm2
    rw [hk1] at hk2
    injection hk2
  · intro r c hst
    have hm := (h3 r c).mpr hst
    obtain ⟨hrN, -, hsp, hmk⟩ := h4 r c hm
    exact ⟨hrN, hm, hsp, ⟨r, hmk⟩⟩

end Wirehair
